import Mathlib

/-!
Verification development for the `ss_evolution` repository
(`src/main/tree.py`): Fitch small-parsimony reconstruction of
gain/loss histories of a binary character on a rooted tree, with
enumeration of equally optimal ambiguous-node assignments, a bound
on the enumeration width, and an origin veto; plus the node-age
utility `get_node_age`.

The Python tree (an `ete3.Tree`) is embedded as a rose tree whose
nodes carry the dynamic attributes the code reads and writes:
`name`, `state` (a set of natural numbers, in practice a subset of
{0,1}), `operation` (set by pass 1; `true` models `'∪'`, `false`
models `'∩'`), and the two flags `gain` / `loss`.  In-place mutation
is rendered by returning the updated tree.  The singleton
destructuring `state, = node.state` (which raises `ValueError` on a
non-singleton) is rendered with `Option` / `Except`.
-/

namespace SSEvo

abbrev St := Finset ℕ

/-- A node of the (ete3) tree: name, state set, operation marker
(`true` = `'∪'`, `false` = `'∩'`), gain/loss flags, children.
Leaves are exactly the nodes with no children. -/
inductive TreeN : Type where
  | node (name : String) (st : St) (op : Bool) (gain : Bool) (loss : Bool)
      (children : List TreeN)

def TreeN.name : TreeN → String
  | .node n _ _ _ _ _ => n

def TreeN.st : TreeN → St
  | .node _ s _ _ _ _ => s

def TreeN.op : TreeN → Bool
  | .node _ _ o _ _ _ => o

def TreeN.gain : TreeN → Bool
  | .node _ _ _ g _ _ => g

def TreeN.loss : TreeN → Bool
  | .node _ _ _ _ l _ => l

def TreeN.children : TreeN → List TreeN
  | .node _ _ _ _ _ cs => cs

/-- `set.intersection(*xs)` over a non-empty argument list (the empty
case cannot occur in the code: an internal node has at least one
child). -/
def interList : List St → St
  | [] => ∅
  | x :: xs => xs.foldl (fun a b => a ∩ b) x

/-- `set.union(*xs)`. -/
def unionList : List St → St
  | [] => ∅
  | x :: xs => xs.foldl (fun a b => a ∪ b) x

/- `tree.copy('deepcopy')`. -/
mutual
def deepcopy : TreeN → TreeN
  | .node n s o g l cs => .node n s o g l (deepcopyL cs)

def deepcopyL : List TreeN → List TreeN
  | [] => []
  | c :: cs => deepcopy c :: deepcopyL cs
end

/- `_fitch_pass1`: postorder bottom-up state computation.  Resets
`gain`/`loss` on every node; for each internal node takes the
intersection of the children's states if non-empty (operation `'∩'`)
else their union (operation `'∪'`, charging one change).  Returns the
updated tree together with `min_changes`. -/
mutual
def pass1 : TreeN → TreeN × ℕ
  | .node n s o _ _ [] => (.node n s o false false [], 0)
  | .node n _ _ _ _ (c :: cs) =>
    let r := pass1L (c :: cs)
    let sts := r.1.map TreeN.st
    let shared := interList sts
    if shared = ∅ then (.node n (unionList sts) true false false r.1, r.2 + 1)
    else (.node n shared false false false r.1, r.2)

def pass1L : List TreeN → List TreeN × ℕ
  | [] => ([], 0)
  | t :: ts =>
    let a := pass1 t
    let b := pass1L ts
    (a.1 :: b.1, a.2 + b.2)
end

/-- An ambiguous-node record `(node, value)` produced by pass 2.  The
Python list stores node references; object identity is rendered by
the node's position `path` (child indices from the root), and the
`name` the enumeration later reads is snapshotted with it. -/
structure AmbRec : Type where
  path : List ℕ
  name : String
  val : ℕ
deriving DecidableEq, Repr

/- `_fitch_pass2`: preorder top-down disambiguation.  The root keeps
its state and is recorded (with both candidate values) if its state
has more than one element; every other internal node refines its
state from its (already refined) ancestor state `A`: `A ∩ s` if
`A ⊆ s`, else `A ∪ s` on a `'∪'` node, else
`s ∪ (A ∩ union of children's states)`; the node is recorded if the
refined state still has more than one element.  Leaves are skipped. -/
/-- The pass-2 state update of one internal non-root node with
ancestor state `A`, own state `s`, operation `o` and children's state
union `u`; the root (no ancestor) keeps its state. -/
def p2st (pa : Option St) (s : St) (o : Bool) (u : St) : St :=
  match pa with
  | none => s
  | some A =>
    if A ⊆ s then A ∩ s
    else if o then A ∪ s
    else s ∪ (A ∩ u)

mutual
def pass2 (pa : Option St) (p : List ℕ) : TreeN → TreeN × List AmbRec
  | .node n s o g l [] => (.node n s o g l [], [])
  | .node n s o g l (c :: cs) =>
    let s2 := p2st pa s o (unionList ((c :: cs).map TreeN.st))
    let own : List AmbRec :=
      if 1 < s2.card then [⟨p, n, 0⟩, ⟨p, n, 1⟩] else []
    let r := pass2L s2 p 0 (c :: cs)
    (.node n s2 o g l r.1, own ++ r.2)

def pass2L (A : St) (p : List ℕ) (i : ℕ) : List TreeN → List TreeN × List AmbRec
  | [] => ([], [])
  | t :: ts =>
    let a := pass2 (some A) (p ++ [i]) t
    let b := pass2L A p (i + 1) ts
    (a.1 :: b.1, a.2 ++ b.2)
end

/-- The dict `{node.name: state for node, state in tree_state}`:
later entries overwrite earlier ones, so lookup finds the last
binding of a key. -/
def lookupName (m : List (String × ℕ)) (k : String) : Option ℕ :=
  (m.reverse.find? (fun q => q.1 = k)).map (fun q => q.2)

/-- `state, = node.state`: the sole element of a singleton set,
`none` (a `ValueError`) otherwise. -/
def single? (s : St) : Option ℕ :=
  if s.card = 1 then some (s.min.untop' 0) else none

/-- The effective state the enumeration uses for a node: the
assignment's value if the node's NAME is a key of the dict, else the
node's own state destructured as a singleton. -/
def effSt (m : List (String × ℕ)) (n : String) (s : St) : Option ℕ :=
  match lookupName m n with
  | some v => some v
  | none => single? s

/-- Running totals of the enumeration's counting walk: total change
count and the name sets `changes['gain']` / `changes['loss']`
(rendered as lists used only through membership). -/
abbrev Tally := ℕ × List String × List String

/- The transition-counting preorder walk over the working tree for
one candidate assignment: leaves are skipped as nodes; an internal
node resolves its effective state, a root with effective state 1 is
charged a spontaneous gain, and every parent→child edge is
classified by `match [state, desc_state]` with the literal patterns
`[0, 1]` (gain on the child) and `[1, 0]` (loss on the child). -/
mutual
def countT (m : List (String × ℕ)) (isRoot : Bool) : TreeN → Option Tally
  | .node _ _ _ _ _ [] => some (0, [], [])
  | .node n s _ _ _ (c :: cs) =>
    match effSt m n s with
    | none => none
    | some v =>
      let bonus : Tally :=
        if isRoot ∧ v = 1 then (1, [n], []) else (0, [], [])
      match countL m v (c :: cs) with
      | none => none
      | some rest =>
        some (bonus.1 + rest.1, bonus.2.1 ++ rest.2.1, bonus.2.2 ++ rest.2.2)

def countL (m : List (String × ℕ)) (v : ℕ) : List TreeN → Option Tally
  | [] => some (0, [], [])
  | c :: cs =>
    match effSt m c.name c.st with
    | none => none
    | some dv =>
      let e : Tally :=
        if v = 0 ∧ dv = 1 then (1, [c.name], [])
        else if v = 1 ∧ dv = 0 then (1, [], [c.name])
        else (0, [], [])
      match countT m false c, countL m v cs with
      | some a, some b =>
        some (e.1 + a.1 + b.1, e.2.1 ++ a.2.1 ++ b.2.1, e.2.2 ++ a.2.2 ++ b.2.2)
      | _, _ => none
end

/- Annotation of an accepted assignment on a fresh copy of the
working tree: a node whose name is in `changes['gain']`/`changes['loss']`
has the flag set, and a node whose name is a key of the assignment
dict has its state overwritten with the assigned singleton. -/
mutual
def annotate (g l : List String) (m : List (String × ℕ)) : TreeN → TreeN
  | .node n s o _ _ cs =>
    let s2 := match lookupName m n with
      | some v => ({v} : St)
      | none => s
    .node n s2 o (g.contains n) (l.contains n) (annotateL g l m cs)

def annotateL (g l : List String) (m : List (String × ℕ)) :
    List TreeN → List TreeN
  | [] => []
  | c :: cs => annotate g l m c :: annotateL g l m cs
end

/- The no-ambiguity branch: on a fresh copy, a preorder walk marks
`gain` on a child with state `{1}` of a parent with state `{0}`, and
`loss` on a child with state `{0}` of a parent with state `{1}`
(the flag on each node is determined by its parent's state). -/
mutual
def annotate0 (pa : Option St) : TreeN → TreeN
  | .node n s o _ _ cs =>
    let g := decide (pa = some ({0} : St) ∧ s = ({1} : St))
    let l := decide (pa = some ({1} : St) ∧ s = ({0} : St))
    .node n s o g l (annotate0L s cs)

def annotate0L (ps : St) : List TreeN → List TreeN
  | [] => []
  | c :: cs => annotate0 (some ps) c :: annotate0L ps cs
end

/-- `_unique_nodes`: all node references in the candidate tuple are
pairwise distinct (identity rendered by `path`). -/
def uniqueNodes (combo : List AmbRec) : Bool :=
  (combo.map AmbRec.path).dedup.length = combo.length

def buildMap (combo : List AmbRec) : List (String × ℕ) :=
  combo.map (fun r => (r.name, r.val))

inductive Err : Type where
  | unpack
  | ambigName
deriving DecidableEq, Repr

/-- The enumeration loop body over the surviving candidate tuples:
count the transitions of each candidate (a `ValueError` aborts the
whole reconstruction) and keep an annotated copy whenever the total
equals `min_changes`. -/
def runCombos (w : TreeN) (mc : ℕ) : List (List AmbRec) → Except Err (List TreeN)
  | [] => .ok []
  | combo :: rest =>
    match countT (buildMap combo) true w with
    | none => .error .unpack
    | some (tot, g, l) =>
      match runCombos w mc rest with
      | .error e => .error e
      | .ok ts =>
        .ok (if tot = mc then annotate g l (buildMap combo) w :: ts else ts)

/- All node names, in preorder. -/
mutual
def namesOf : TreeN → List String
  | .node n _ _ _ _ cs => n :: namesOfL cs

def namesOfL : List TreeN → List String
  | [] => []
  | c :: cs => namesOf c ++ namesOfL cs
end

/- Names of the leaves. -/
mutual
def leafNames : TreeN → List String
  | .node n _ _ _ _ [] => [n]
  | .node _ _ _ _ _ (c :: cs) => leafNamesL (c :: cs)

def leafNamesL : List TreeN → List String
  | [] => []
  | c :: cs => leafNames c ++ leafNamesL cs
end

/-- ete3's `_translate_nodes`, which `get_common_ancestor` calls on
the leaf-name list, scans the *whole* tree for each queried name and
raises `TreeError('Ambiguous node name: ...')` as soon as a queried
leaf name matches more than one node of the tree. -/
def ambigLeafName (w : TreeN) : Bool :=
  (leafNames w).any (fun x => 1 < (namesOf w).count x)

/-- The common ancestor of all leaves when every leaf name is
unambiguous: the first node reached from the root that does not have
exactly one child. -/
def pseudoRoot : TreeN → TreeN
  | .node _ _ _ _ _ [c] => pseudoRoot c
  | t => t

/-- `_get_pseudo_root`: `tree.get_common_ancestor(tree.get_leaf_names())`,
which raises ete3's `TreeError` whenever a leaf name is carried by a
second node, and otherwise returns the leaves' common ancestor. -/
def pseudoRootE (w : TreeN) : Except Err TreeN :=
  if ambigLeafName w then .error .ambigName else .ok (pseudoRoot w)

/-- `_fitch`: pass 1, pass 2, then either the single no-ambiguity
annotated copy, or — unless more than 10 distinct ambiguous nodes
make the search abandon with an empty set — the enumeration of all
candidate tuples (`combinations` of the records filtered by
`_unique_nodes`); finally the pseudo-root is looked up (which raises
ete3's `TreeError` when a leaf name is ambiguous) and the origin veto
discards every annotated tree when the pseudo-root's state is
`{1}`. -/
def fitchCore (t : TreeN) : Except Err (ℕ × List TreeN) :=
  let a := pass1 t
  let b := pass2 none [] a.1
  if b.2.isEmpty then
    let one := annotate0 none b.1
    match pseudoRootE b.1 with
    | .error e => .error e
    | .ok pr => .ok (a.2, if pr.st = ({1} : St) then [] else [one])
  else
    let r := (b.2.map AmbRec.path).dedup.length
    if 10 < r then .ok (a.2, [])
    else
      match runCombos b.1 a.2 ((b.2.sublistsLen r).filter uniqueNodes) with
      | .error e => .error e
      | .ok ts =>
        match pseudoRootE b.1 with
        | .error e => .error e
        | .ok pr => .ok (a.2, if pr.st = ({1} : St) then [] else ts)

/-- `fitch`: deep-copy the caller's tree and run `_fitch` on the
private working copy. -/
def fitch (t : TreeN) : Except Err (ℕ × List TreeN) :=
  fitchCore (deepcopy t)

/-- The working tree after pass 1 and pass 2. -/
def w2Of (t : TreeN) : TreeN := (pass2 none [] (pass1 t).1).1

/-- The ambiguous-node records pass 2 reports. -/
def ambOf (t : TreeN) : List AmbRec := (pass2 none [] (pass1 t).1).2

/-- `r`: the number of distinct ambiguous nodes. -/
def rOf (t : TreeN) : ℕ := ((ambOf t).map AmbRec.path).dedup.length

/-- The candidate tuples the enumeration processes. -/
def combosOf (t : TreeN) : List (List AmbRec) :=
  ((ambOf t).sublistsLen (rOf t)).filter uniqueNodes

/-! ### The node-age utility `get_node_age` -/

/-- A tree node as `get_node_age` sees it: a name and a branch length
`dist` to its parent (ete3's default when none is given is `1.0`). -/
inductive DTree : Type where
  | node (name : String) (dist : ℚ) (children : List DTree)

def DTree.name : DTree → String
  | .node n _ _ => n

def DTree.dist : DTree → ℚ
  | .node _ d _ => d

def DTree.children : DTree → List DTree
  | .node _ _ cs => cs

/-- A value stored in the `node_age` dict.  The code stores the
node's *name* (a string) for a leaf and a float distance for an
internal node, so the dict is heterogeneous. -/
inductive AgeVal : Type where
  | ofName (s : String)
  | ofDist (q : ℚ)
deriving DecidableEq, Repr

/- `node.get_farthest_leaf()`'s distance component: the largest
branch-length sum from the node down to a leaf of its subtree. -/
mutual
def farthestLeafDist : DTree → ℚ
  | .node _ _ [] => 0
  | .node _ _ (c :: cs) => farthestLeafDistL (c :: cs)

def farthestLeafDistL : List DTree → ℚ
  | [] => 0
  | [c] => c.dist + farthestLeafDist c
  | c :: c2 :: cs =>
    max (c.dist + farthestLeafDist c) (farthestLeafDistL (c2 :: cs))
end

/- `get_node_age`: postorder walk filling `node_age`; a leaf's entry
is `node.name` itself, an internal node's entry is the distance to
its farthest descendant leaf.  The dict is rendered as an assoc list
in insertion order with last-wins lookup. -/
mutual
def nodeAge : DTree → List (String × AgeVal)
  | .node n _ [] => [(n, .ofName n)]
  | .node n d (c :: cs) =>
    nodeAgeL (c :: cs) ++
      [(n, .ofDist (farthestLeafDist (.node n d (c :: cs))))]

def nodeAgeL : List DTree → List (String × AgeVal)
  | [] => []
  | c :: cs => nodeAge c ++ nodeAgeL cs
end

/-- Lookup in the built `node_age` dict (later insertions win). -/
def lookupAge (m : List (String × AgeVal)) (k : String) : Option AgeVal :=
  (m.reverse.find? (fun q => q.1 = k)).map (fun q => q.2)

/- All subtrees, listed in the order `tree.traverse('postorder')`
visits their roots. -/
mutual
def subAll : DTree → List DTree
  | .node n d cs => subAllL cs ++ [.node n d cs]

def subAllL : List DTree → List DTree
  | [] => []
  | c :: cs => subAll c ++ subAllL cs
end

/-- The `node_age` entry a node contributes, per the amended reading
of the code: a leaf contributes its *name* (the string itself, not a
depth), an internal node its farthest-descendant-leaf distance. -/
def ageEntry : DTree → String × AgeVal
  | .node n _ [] => (n, .ofName n)
  | .node n d (c :: cs) =>
    (n, .ofDist (farthestLeafDist (.node n d (c :: cs))))

/-! ### Singleton assignments of states to nodes

Used to state what pass 1's `min_changes` is the minimum *of*: a
`VTree` assigns one value to every node of a same-shaped tree. -/

inductive VTree : Type where
  | node (v : ℕ) (children : List VTree)

def VTree.v : VTree → ℕ
  | .node x _ => x

def VTree.children : VTree → List VTree
  | .node _ ds => ds

/- The number of parent→child edges whose endpoint values differ. -/
mutual
def vchg : VTree → ℕ
  | .node x ds => vchgL x ds

def vchgL (x : ℕ) : List VTree → ℕ
  | [] => 0
  | d :: ds => (if d.v = x then 0 else 1) + vchg d + vchgL x ds
end

/- A full singleton assignment consistent with the tree: same shape,
every value in {0,1}, and each leaf's value a member of the leaf's
pre-assigned state set. -/
mutual
def consistent : TreeN → VTree → Bool
  | .node _ s _ _ _ [], .node x [] => x ≤ 1 && decide (x ∈ s)
  | .node _ _ _ _ _ (c :: cs), .node x (d :: ds) =>
    x ≤ 1 && consistent c d && consistentL cs ds
  | _, _ => false

def consistentL : List TreeN → List VTree → Bool
  | [], [] => true
  | c :: cs, d :: ds => consistent c d && consistentL cs ds
  | _, _ => false
end

/- The assignment of effective states induced by one enumerated
candidate: each node takes `effSt` of its name and state (defined
whenever every destructuring in the counting walk succeeds). -/
mutual
def effTree (m : List (String × ℕ)) : TreeN → Option VTree
  | .node n s _ _ _ cs =>
    match effSt m n s, effTreeL m cs with
    | some v, some ds => some (.node v ds)
    | _, _ => none

def effTreeL (m : List (String × ℕ)) : List TreeN → Option (List VTree)
  | [] => some []
  | c :: cs =>
    match effTree m c, effTreeL m cs with
    | some d, some ds => some (d :: ds)
    | _, _ => none
end

/- A greedy optimal assignment: take the preferred value where the
node's state set allows it, else the smallest member of the state
set; children prefer their parent's chosen value. -/
def pick (s : St) : ℕ := s.min.untop' 0

mutual
def greedy (pref : ℕ) : TreeN → VTree
  | .node _ s _ _ _ cs =>
    let v := if pref ∈ s then pref else pick s
    .node v (greedyL v cs)

def greedyL (v : ℕ) : List TreeN → List VTree
  | [] => []
  | c :: cs => greedy v c :: greedyL v cs
end

/-- Number of trees in the list whose root state misses `x` (a proof
device for the parsimony lower bound). -/
def missCount (x : ℕ) : List TreeN → ℕ
  | [] => 0
  | w :: ws => (if x ∈ w.st then 0 else 1) + missCount x ws

/-! ### Structural measures and invariants -/

/- Every leaf carries a pre-assigned singleton state `{0}` or `{1}`
(the caller-supplied well-formedness precondition). -/
mutual
def wfB : TreeN → Bool
  | .node _ s _ _ _ [] => decide (s = ({0} : St)) || decide (s = ({1} : St))
  | .node _ _ _ _ _ (c :: cs) => wfB c && wfLB cs

def wfLB : List TreeN → Bool
  | [] => true
  | c :: cs => wfB c && wfLB cs
end

/-- Every internal node has exactly two children (a strictly
bifurcating tree). -/
def binaryB : TreeN → Bool
  | .node _ _ _ _ _ [] => true
  | .node _ _ _ _ _ [a, b] => binaryB a && binaryB b
  | _ => false

/- The number of internal nodes marked `'∪'` by pass 1. -/
mutual
def ucount : TreeN → ℕ
  | .node _ _ _ _ _ [] => 0
  | .node _ _ o _ _ (c :: cs) => (if o then 1 else 0) + ucountL (c :: cs)

def ucountL : List TreeN → ℕ
  | [] => 0
  | c :: cs => ucount c + ucountL cs
end

/- Number of leaves. -/
mutual
def leafCount : TreeN → ℕ
  | .node _ _ _ _ _ [] => 1
  | .node _ _ _ _ _ (c :: cs) => leafCountL (c :: cs)

def leafCountL : List TreeN → ℕ
  | [] => 0
  | c :: cs => leafCount c + leafCountL cs
end

/- All nodes of the tree, each with the path (child-index list)
identifying its position. -/
mutual
def nodesPaths (p : List ℕ) : TreeN → List (List ℕ × TreeN)
  | .node n s o g l cs => (p, .node n s o g l cs) :: nodesPathsL p 0 cs

def nodesPathsL (p : List ℕ) (i : ℕ) : List TreeN → List (List ℕ × TreeN)
  | [] => []
  | c :: cs => nodesPaths (p ++ [i]) c ++ nodesPathsL p (i + 1) cs
end

/- The shape invariant pass 1 establishes: each leaf state is `{0}`
or `{1}`; each internal node's state and operation agree with its
children's states via the intersection/union rule. -/
mutual
def p1invB : TreeN → Bool
  | .node _ s _ _ _ [] => decide (s = ({0} : St)) || decide (s = ({1} : St))
  | .node _ s o _ _ (c :: cs) =>
    (if interList ((c :: cs).map TreeN.st) = ∅ then
      o && decide (s = unionList ((c :: cs).map TreeN.st))
    else
      !o && decide (s = interList ((c :: cs).map TreeN.st)))
      && p1invLB (c :: cs)

def p1invLB : List TreeN → Bool
  | [] => true
  | c :: cs => p1invB c && p1invLB cs
end

/- Every node's state is a non-empty subset of `{0,1}`. -/
mutual
def stOkB : TreeN → Bool
  | .node _ s _ _ _ cs =>
    decide (s ≠ ∅) && decide (s ⊆ ({0, 1} : St)) && stOkLB cs

def stOkLB : List TreeN → Bool
  | [] => true
  | c :: cs => stOkB c && stOkLB cs
end

/- The total number of `gain` and `loss` flags set on an annotated
tree: its total gain+loss event count. -/
mutual
def evCount : TreeN → ℕ
  | .node _ _ _ g l cs =>
    (if g then 1 else 0) + (if l then 1 else 0) + evCountL cs

def evCountL : List TreeN → ℕ
  | [] => 0
  | c :: cs => evCount c + evCountL cs
end

/- Skeleton equality: same shape and node names, and equal states at
leaves.  `pass1` and `pass2` change only states, operations and flags
of internal nodes, so they preserve the skeleton. -/
mutual
def skelEq : TreeN → TreeN → Bool
  | .node n s _ _ _ [], .node n2 s2 _ _ _ [] => n = n2 && decide (s = s2)
  | .node n _ _ _ _ (c :: cs), .node n2 _ _ _ _ (d :: ds) =>
    n = n2 && skelEq c d && skelEqL cs ds
  | _, _ => false

def skelEqL : List TreeN → List TreeN → Bool
  | [], [] => true
  | c :: cs, d :: ds => skelEq c d && skelEqL cs ds
  | _, _ => false
end

/- Names of the internal nodes. -/
mutual
def intNames : TreeN → List String
  | .node _ _ _ _ _ [] => []
  | .node n _ _ _ _ (c :: cs) => n :: intNamesL (c :: cs)

def intNamesL : List TreeN → List String
  | [] => []
  | c :: cs => intNames c ++ intNamesL cs
end

/-! ### Concrete instances used in counterexamples and witnesses -/

/-- A leaf with a pre-assigned singleton state. -/
def leafT (n : String) (v : ℕ) : TreeN := .node n {v} false false false []

/-- Summary of a reconstruction outcome: `min_changes` together with
the gain+loss event count of each returned annotated tree. -/
def outSummary (r : Except Err (ℕ × List TreeN)) : Option (ℕ × List ℕ) :=
  match r with
  | .ok (mc, ts) => some (mc, ts.map evCount)
  | .error _ => none

/-- A 4-leaf star (a single multifurcating root) with leaf states
0, 0, 1, 1. -/
def star4 : TreeN :=
  .node "r" ∅ false false false
    [leafT "a" 0, leafT "b" 0, leafT "c" 1, leafT "d" 1]

/-- A strictly bifurcating cherry with leaf states 0, 1. -/
def cherryT : TreeN :=
  .node "u" ∅ false false false [leafT "ua" 0, leafT "ub" 1]

/-- The single annotated tree `fitchCore` returns on `cherryT`. -/
def cherryOut : TreeN :=
  .node "u" {0} true false false
    [leafT "ua" 0, .node "ub" {1} false true false []]

/-- Two internal nodes share the name `X`: one above two 1-leaves,
one above two 0-leaves. -/
def cex1 : TreeN :=
  .node "R" ∅ false false false
    [.node "X" ∅ false false false [leafT "a1" 1, leafT "a2" 1],
     .node "X" ∅ false false false [leafT "b1" 0, leafT "b2" 0]]

/-- A leaf named `N` under a root that is also named `N`. -/
def cex2 : TreeN :=
  .node "N" ∅ false false false [leafT "N" 1, leafT "b" 0]

/-- A cherry whose two leaves both carry state 1. -/
def allOnes : TreeN := .node "r" ∅ false false false [leafT "a" 1, leafT "b" 1]

/-- A (0,1) cherry with names derived from an index. -/
def cherryIx (i : ℕ) : TreeN :=
  .node (toString i) ∅ false false false
    [leafT (toString i ++ "a") 0, leafT (toString i ++ "b") 1]

/-- Eleven (0,1) cherries under one root: 12 distinct ambiguous nodes
after pass 2. -/
def bigR : TreeN :=
  .node "r" ∅ false false false ((List.range 11).map cherryIx)

/-- Two cherries, (1,1) and (0,0), under one root: the root is
ambiguous and exactly one optimal history (root 0) is accepted. -/
def sc2 : TreeN :=
  .node "r" ∅ false false false
    [.node "u" ∅ false false false [leafT "a" 1, leafT "b" 1],
     .node "w" ∅ false false false [leafT "c" 0, leafT "d" 0]]

/-- The single annotated tree `fitchCore` returns on `sc2`. -/
def sc2out : TreeN :=
  .node "r" {0} true false false
    [.node "u" {1} false true false [leafT "a" 1, leafT "b" 1],
     .node "w" {0} false false false [leafT "c" 0, leafT "d" 0]]

/-- A small branch-length tree for `get_node_age`: a root with an
internal child `i` (two leaf children `A`, `B`) and a leaf `C`, all
branch lengths 1. -/
def dtreeC10 : DTree :=
  .node "root" 0
    [.node "i" 1 [.node "A" 1 [], .node "B" 1 []], .node "C" 1 []]

/-! ### Lemmas: set and lookup helpers -/

theorem mem_foldl_inter (xs : List St) (a : St) (x : ℕ) :
    x ∈ xs.foldl (fun u v => u ∩ v) a ↔ x ∈ a ∧ ∀ s ∈ xs, x ∈ s := by
  induction xs generalizing a with
  | nil => simp
  | cons y ys ih =>
    simp only [List.foldl_cons, ih, Finset.mem_inter, List.mem_cons]
    constructor
    · rintro ⟨⟨ha, hy⟩, hall⟩
      exact ⟨ha, fun s hs => hs.elim (fun h => h ▸ hy) (hall s)⟩
    · rintro ⟨ha, hall⟩
      exact ⟨⟨ha, hall y (Or.inl rfl)⟩, fun s hs => hall s (Or.inr hs)⟩

theorem mem_interList {c : St} {cs : List St} {x : ℕ} :
    x ∈ interList (c :: cs) ↔ x ∈ c ∧ ∀ s ∈ cs, x ∈ s :=
  mem_foldl_inter cs c x

theorem mem_foldl_union (xs : List St) (a : St) (x : ℕ) :
    x ∈ xs.foldl (fun u v => u ∪ v) a ↔ x ∈ a ∨ ∃ s ∈ xs, x ∈ s := by
  induction xs generalizing a with
  | nil => simp
  | cons y ys ih =>
    simp only [List.foldl_cons, ih, List.mem_cons]
    constructor
    · rintro (hay | ⟨s, hs, hx⟩)
      · rcases Finset.mem_union.mp hay with h | h
        · exact Or.inl h
        · exact Or.inr ⟨y, Or.inl rfl, h⟩
      · exact Or.inr ⟨s, Or.inr hs, hx⟩
    · rintro (ha | ⟨s, hs | hs, hx⟩)
      · exact Or.inl (Finset.mem_union_left _ ha)
      · exact Or.inl (Finset.mem_union_right _ (hs ▸ hx))
      · exact Or.inr ⟨s, hs, hx⟩

theorem mem_unionList {c : St} {cs : List St} {x : ℕ} :
    x ∈ unionList (c :: cs) ↔ x ∈ c ∨ ∃ s ∈ cs, x ∈ s :=
  mem_foldl_union cs c x

theorem single?_eq_some {s : St} {v : ℕ} : single? s = some v ↔ s = {v} := by
  unfold single?
  constructor
  · intro h
    split at h
    case isTrue hc =>
      obtain ⟨a, ha⟩ := Finset.card_eq_one.mp hc
      subst ha
      rw [Finset.min_singleton] at h
      simp only [WithTop.untop'_coe, Option.some.injEq] at h
      rw [h]
    case isFalse hc => simp at h
  · intro h
    subst h
    rw [if_pos (Finset.card_singleton v), Finset.min_singleton]
    rfl

theorem pick_mem {s : St} (h : s.Nonempty) : pick s ∈ s := by
  unfold pick
  rcases hm : s.min with _ | a
  · exact absurd (Finset.min_eq_top.mp hm) (Finset.nonempty_iff_ne_empty.mp h)
  · exact Finset.mem_of_min hm

theorem lookupName_eq_none {m : List (String × ℕ)} {k : String} :
    lookupName m k = none ↔ ∀ q ∈ m, q.1 ≠ k := by
  unfold lookupName
  simp [List.find?_eq_none]

/-! ### Lemmas: unfolding shapes of the mutual recursions -/

theorem pass1L_cons (t : TreeN) (ts : List TreeN) :
    pass1L (t :: ts) =
      ((pass1 t).1 :: (pass1L ts).1, (pass1 t).2 + (pass1L ts).2) := by
  simp [pass1L]

theorem pass2L_cons (A : St) (p : List ℕ) (i : ℕ) (t : TreeN) (ts : List TreeN) :
    pass2L A p i (t :: ts) =
      ((pass2 (some A) (p ++ [i]) t).1 :: (pass2L A p (i + 1) ts).1,
        (pass2 (some A) (p ++ [i]) t).2 ++ (pass2L A p (i + 1) ts).2) := by
  simp [pass2L]

/-! ### Lemmas: skeleton preservation -/

mutual
theorem skelEq_pass1 : ∀ t : TreeN, skelEq t (pass1 t).1 = true
  | .node n s o g l [] => by simp [pass1, skelEq]
  | .node n s o g l (c :: cs) => by
    have h1 := skelEq_pass1 c
    have h2 := skelEq_pass1L cs
    simp only [pass1, pass1L_cons]
    split
    all_goals simp [skelEq, h1, h2]

theorem skelEq_pass1L : ∀ ts : List TreeN, skelEqL ts (pass1L ts).1 = true
  | [] => by simp [pass1L, skelEqL]
  | t :: ts => by
    have h1 := skelEq_pass1 t
    have h2 := skelEq_pass1L ts
    simp [pass1L_cons, skelEqL, h1, h2]
end

mutual
theorem skelEq_pass2 : ∀ (w : TreeN) (pa : Option St) (p : List ℕ),
    skelEq w (pass2 pa p w).1 = true
  | .node n s o g l [], pa, p => by simp [pass2, skelEq]
  | .node n s o g l (c :: cs), pa, p => by
    have h1 := skelEq_pass2 c
    have h2 := skelEq_pass2L cs
    simp only [pass2, pass2L_cons]
    simp [skelEq, h1, h2]

theorem skelEq_pass2L : ∀ (ts : List TreeN) (A : St) (p : List ℕ) (i : ℕ),
    skelEqL ts (pass2L A p i ts).1 = true
  | [], A, p, i => by simp [pass2L, skelEqL]
  | t :: ts, A, p, i => by
    have h1 := skelEq_pass2 t (some A) (p ++ [i])
    have h2 := skelEq_pass2L ts A p (i + 1)
    simp [pass2L_cons, skelEqL, h1, h2]
end

/-! ### Lemmas: facts transported along the skeleton -/

mutual
theorem consistent_skelEq : ∀ (t w : TreeN), skelEq t w = true →
    ∀ σ : VTree, consistent w σ = consistent t σ
  | .node n s o g l [], .node n2 s2 o2 g2 l2 [], h, σ => by
    simp only [skelEq, Bool.and_eq_true, decide_eq_true_eq] at h
    cases σ with
    | node x ds =>
      cases ds with
      | nil => simp [consistent, h.2]
      | cons e es => simp [consistent]
  | .node n s o g l [], .node n2 s2 o2 g2 l2 (d :: ds), h, σ => by
    simp [skelEq] at h
  | .node n s o g l (c :: cs), .node n2 s2 o2 g2 l2 [], h, σ => by
    simp [skelEq] at h
  | .node n s o g l (c :: cs), .node n2 s2 o2 g2 l2 (d :: ds), h, σ => by
    simp only [skelEq, Bool.and_eq_true] at h
    cases σ with
    | node x es =>
      cases es with
      | nil => simp [consistent]
      | cons e es =>
        simp [consistent, consistent_skelEq c d h.1.2 e,
          consistentL_skelEq cs ds h.2 es]

theorem consistentL_skelEq : ∀ (ts ws : List TreeN), skelEqL ts ws = true →
    ∀ σs : List VTree, consistentL ws σs = consistentL ts σs
  | [], [], _, σs => by cases σs <;> simp [consistentL]
  | [], w :: ws, h, σs => by simp [skelEqL] at h
  | t :: ts, [], h, σs => by simp [skelEqL] at h
  | t :: ts, w :: ws, h, σs => by
    simp only [skelEqL, Bool.and_eq_true] at h
    cases σs with
    | nil => simp [consistentL]
    | cons e es =>
      simp [consistentL, consistent_skelEq t w h.1 e,
        consistentL_skelEq ts ws h.2 es]
end

mutual
theorem namesOf_skelEq : ∀ (t w : TreeN), skelEq t w = true →
    namesOf w = namesOf t
  | .node n s o g l [], .node n2 s2 o2 g2 l2 [], h => by
    simp only [skelEq, Bool.and_eq_true, decide_eq_true_eq] at h
    simp [namesOf, h.1]
  | .node n s o g l [], .node n2 s2 o2 g2 l2 (d :: ds), h => by
    simp [skelEq] at h
  | .node n s o g l (c :: cs), .node n2 s2 o2 g2 l2 [], h => by
    simp [skelEq] at h
  | .node n s o g l (c :: cs), .node n2 s2 o2 g2 l2 (d :: ds), h => by
    simp only [skelEq, Bool.and_eq_true, decide_eq_true_eq] at h
    simp only [namesOf, namesOfL, h.1.1]
    rw [namesOf_skelEq c d h.1.2, namesOfL_skelEq cs ds h.2]

theorem namesOfL_skelEq : ∀ (ts ws : List TreeN), skelEqL ts ws = true →
    namesOfL ws = namesOfL ts
  | [], [], _ => rfl
  | [], w :: ws, h => by simp [skelEqL] at h
  | t :: ts, [], h => by simp [skelEqL] at h
  | t :: ts, w :: ws, h => by
    simp only [skelEqL, Bool.and_eq_true] at h
    simp only [namesOfL]
    rw [namesOf_skelEq t w h.1, namesOfL_skelEq ts ws h.2]
end

mutual
theorem leafNames_skelEq : ∀ (t w : TreeN), skelEq t w = true →
    leafNames w = leafNames t
  | .node n s o g l [], .node n2 s2 o2 g2 l2 [], h => by
    simp only [skelEq, Bool.and_eq_true, decide_eq_true_eq] at h
    simp [leafNames, h.1]
  | .node n s o g l [], .node n2 s2 o2 g2 l2 (d :: ds), h => by
    simp [skelEq] at h
  | .node n s o g l (c :: cs), .node n2 s2 o2 g2 l2 [], h => by
    simp [skelEq] at h
  | .node n s o g l (c :: cs), .node n2 s2 o2 g2 l2 (d :: ds), h => by
    simp only [skelEq, Bool.and_eq_true, decide_eq_true_eq] at h
    simp only [leafNames, leafNamesL]
    rw [leafNames_skelEq c d h.1.2, leafNamesL_skelEq cs ds h.2]

theorem leafNamesL_skelEq : ∀ (ts ws : List TreeN), skelEqL ts ws = true →
    leafNamesL ws = leafNamesL ts
  | [], [], _ => rfl
  | [], w :: ws, h => by simp [skelEqL] at h
  | t :: ts, [], h => by simp [skelEqL] at h
  | t :: ts, w :: ws, h => by
    simp only [skelEqL, Bool.and_eq_true] at h
    simp only [leafNamesL]
    rw [leafNames_skelEq t w h.1, leafNamesL_skelEq ts ws h.2]
end

mutual
theorem intNames_skelEq : ∀ (t w : TreeN), skelEq t w = true →
    intNames w = intNames t
  | .node n s o g l [], .node n2 s2 o2 g2 l2 [], h => by
    simp [intNames]
  | .node n s o g l [], .node n2 s2 o2 g2 l2 (d :: ds), h => by
    simp [skelEq] at h
  | .node n s o g l (c :: cs), .node n2 s2 o2 g2 l2 [], h => by
    simp [skelEq] at h
  | .node n s o g l (c :: cs), .node n2 s2 o2 g2 l2 (d :: ds), h => by
    simp only [skelEq, Bool.and_eq_true, decide_eq_true_eq] at h
    simp only [intNames, intNamesL, h.1.1]
    rw [intNames_skelEq c d h.1.2, intNamesL_skelEq cs ds h.2]

theorem intNamesL_skelEq : ∀ (ts ws : List TreeN), skelEqL ts ws = true →
    intNamesL ws = intNamesL ts
  | [], [], _ => rfl
  | [], w :: ws, h => by simp [skelEqL] at h
  | t :: ts, [], h => by simp [skelEqL] at h
  | t :: ts, w :: ws, h => by
    simp only [skelEqL, Bool.and_eq_true] at h
    simp only [intNamesL]
    rw [intNames_skelEq t w h.1, intNamesL_skelEq ts ws h.2]
end

theorem binaryB_skelEq : ∀ (t w : TreeN), skelEq t w = true →
    binaryB w = binaryB t
  | .node n s o g l [], .node n2 s2 o2 g2 l2 [], h => by
    simp [binaryB]
  | .node n s o g l [], .node n2 s2 o2 g2 l2 (d :: ds), h => by
    simp [skelEq] at h
  | .node n s o g l (c :: cs), .node n2 s2 o2 g2 l2 [], h => by
    simp [skelEq] at h
  | .node n s o g l (c :: cs), .node n2 s2 o2 g2 l2 (d :: ds), h => by
    simp only [skelEq, Bool.and_eq_true, decide_eq_true_eq] at h
    cases cs with
    | nil =>
      cases ds with
      | nil => simp [binaryB]
      | cons d2 ds2 => simp [skelEqL] at h
    | cons c2 cs2 =>
      cases ds with
      | nil =>
        obtain ⟨h1, h2⟩ := h
        simp [skelEqL] at h2
      | cons d2 ds2 =>
        have h2 := h.2
        simp only [skelEqL, Bool.and_eq_true] at h2
        cases cs2 with
        | nil =>
          cases ds2 with
          | nil =>
            simp [binaryB, binaryB_skelEq c d h.1.2, binaryB_skelEq c2 d2 h2.1]
          | cons d3 ds3 => simp [skelEqL] at h2
        | cons c3 cs3 =>
          cases ds2 with
          | nil => simp [skelEqL] at h2
          | cons d3 ds3 => simp [binaryB]

/-! ### Lemmas: invariants established by pass 1 -/

theorem stOkB_st {t : TreeN} (h : stOkB t = true) :
    t.st ≠ ∅ ∧ t.st ⊆ ({0, 1} : St) := by
  cases t with
  | node n s o g l cs =>
    simp only [stOkB, Bool.and_eq_true, decide_eq_true_eq] at h
    exact ⟨h.1.1, h.1.2⟩

theorem stOkB_children {n : String} {s : St} {o g l : Bool} {cs : List TreeN}
    (h : stOkB (.node n s o g l cs) = true) : stOkLB cs = true := by
  simp only [stOkB, Bool.and_eq_true] at h
  exact h.2

theorem stOkLB_mem : ∀ {ts : List TreeN}, stOkLB ts = true →
    ∀ t ∈ ts, stOkB t = true := by
  intro ts
  induction ts with
  | nil => intro _ t ht; simp at ht
  | cons c cs ih =>
    intro h t ht
    simp only [stOkLB, Bool.and_eq_true] at h
    rcases List.mem_cons.mp ht with ht2 | ht2
    · exact ht2 ▸ h.1
    · exact ih h.2 t ht2

theorem p1invLB_mem : ∀ {ts : List TreeN}, p1invLB ts = true →
    ∀ t ∈ ts, p1invB t = true := by
  intro ts
  induction ts with
  | nil => intro _ t ht; simp at ht
  | cons c cs ih =>
    intro h t ht
    simp only [p1invLB, Bool.and_eq_true] at h
    rcases List.mem_cons.mp ht with ht2 | ht2
    · exact ht2 ▸ h.1
    · exact ih h.2 t ht2

mutual
theorem stOk_of_p1inv : ∀ t : TreeN, p1invB t = true → stOkB t = true
  | .node n s o g l [], h => by
    simp only [p1invB, Bool.or_eq_true, decide_eq_true_eq] at h
    simp only [stOkB, stOkLB, Bool.and_eq_true, decide_eq_true_eq]
    rcases h with h | h <;> subst h <;>
      refine ⟨⟨by simp, ?_⟩, trivial⟩ <;> intro x hx <;> simp at hx <;> simp [hx]
  | .node n s o g l (c :: cs), h => by
    simp only [p1invB, Bool.and_eq_true] at h
    have hcs := stOk_of_p1invL (c :: cs) h.2
    have hc : stOkB c = true := stOkLB_mem hcs c (by simp)
    obtain ⟨hcne, hcsub⟩ := stOkB_st hc
    simp only [stOkB, Bool.and_eq_true, decide_eq_true_eq]
    refine ⟨⟨?_, ?_⟩, hcs⟩
    · -- non-empty state
      by_cases hin : interList ((c :: cs).map TreeN.st) = ∅
      · rw [if_pos hin, Bool.and_eq_true, decide_eq_true_eq] at h
        obtain ⟨x, hx⟩ := Finset.nonempty_iff_ne_empty.mpr hcne
        rw [h.1.2]
        intro hemp
        have : x ∈ unionList ((c :: cs).map TreeN.st) := by
          rw [List.map_cons]
          exact mem_unionList.mpr (Or.inl hx)
        rw [hemp] at this
        simp at this
      · rw [if_neg hin, Bool.and_eq_true, decide_eq_true_eq] at h
        rw [h.1.2]
        exact hin
    · -- state within {0,1}
      by_cases hin : interList ((c :: cs).map TreeN.st) = ∅
      · rw [if_pos hin, Bool.and_eq_true, decide_eq_true_eq] at h
        rw [h.1.2]
        intro x hx
        rw [List.map_cons] at hx
        rcases mem_unionList.mp hx with hx | ⟨s2, hs2, hx⟩
        · exact hcsub hx
        · obtain ⟨u, hu, rfl⟩ := List.mem_map.mp hs2
          exact (stOkB_st (stOkLB_mem hcs u (by simp [hu]))).2 hx
      · rw [if_neg hin, Bool.and_eq_true, decide_eq_true_eq] at h
        rw [h.1.2]
        intro x hx
        rw [List.map_cons] at hx
        exact hcsub (mem_interList.mp hx).1

theorem stOk_of_p1invL : ∀ ts : List TreeN, p1invLB ts = true → stOkLB ts = true
  | [], _ => rfl
  | t :: ts, h => by
    simp only [p1invLB, Bool.and_eq_true] at h
    simp only [stOkLB, Bool.and_eq_true]
    exact ⟨stOk_of_p1inv t h.1, stOk_of_p1invL ts h.2⟩
end

theorem pass1_eq (n : String) (s : St) (o g l : Bool) (c : TreeN)
    (cs : List TreeN) :
    pass1 (.node n s o g l (c :: cs)) =
      (if interList ((pass1L (c :: cs)).1.map TreeN.st) = ∅ then
        (.node n (unionList ((pass1L (c :: cs)).1.map TreeN.st)) true false
          false (pass1L (c :: cs)).1, (pass1L (c :: cs)).2 + 1)
      else
        (.node n (interList ((pass1L (c :: cs)).1.map TreeN.st)) false false
          false (pass1L (c :: cs)).1, (pass1L (c :: cs)).2)) := by
  simp only [pass1]

theorem pass2_eq (pa : Option St) (p : List ℕ) (n : String) (s : St)
    (o g l : Bool) (c : TreeN) (cs : List TreeN) :
    pass2 pa p (.node n s o g l (c :: cs)) =
      (.node n (p2st pa s o (unionList ((c :: cs).map TreeN.st))) o g l
        (pass2L (p2st pa s o (unionList ((c :: cs).map TreeN.st))) p 0
          (c :: cs)).1,
      (if 1 < (p2st pa s o (unionList ((c :: cs).map TreeN.st))).card then
        [⟨p, n, 0⟩, ⟨p, n, 1⟩] else []) ++
      (pass2L (p2st pa s o (unionList ((c :: cs).map TreeN.st))) p 0
        (c :: cs)).2) := by
  simp only [pass2]

mutual
theorem ucount_pass1 : ∀ t : TreeN, (pass1 t).2 = ucount (pass1 t).1
  | .node n s o g l [] => by simp [pass1, ucount]
  | .node n s o g l (c :: cs) => by
    have h1 := ucount_pass1 c
    have h2 := ucount_pass1L cs
    rw [pass1_eq, pass1L_cons]
    split <;> simp [ucount, ucountL] <;> omega

theorem ucount_pass1L : ∀ ts : List TreeN, (pass1L ts).2 = ucountL (pass1L ts).1
  | [] => by simp [pass1L, ucountL]
  | t :: ts => by
    have h1 := ucount_pass1 t
    have h2 := ucount_pass1L ts
    rw [pass1L_cons]
    simp only [ucountL]
    omega
end

mutual
theorem p1inv_pass1 : ∀ t : TreeN, wfB t = true → p1invB (pass1 t).1 = true
  | .node n s o g l [], h => by
    simp only [wfB] at h
    simpa [pass1, p1invB] using h
  | .node n s o g l (c :: cs), h => by
    simp only [wfB, Bool.and_eq_true] at h
    have hL : p1invLB (pass1L (c :: cs)).1 = true :=
      p1inv_pass1L (c :: cs) (by
        simp only [wfLB, Bool.and_eq_true]
        exact ⟨h.1, h.2⟩)
    rw [pass1_eq]
    split
    case isTrue hsh =>
      rw [pass1L_cons] at hsh hL ⊢
      simp only [p1invB, Bool.and_eq_true]
      rw [if_pos hsh]
      simp [hL]
    case isFalse hsh =>
      rw [pass1L_cons] at hsh hL ⊢
      simp only [p1invB, Bool.and_eq_true]
      rw [if_neg hsh]
      simp [hL]

theorem p1inv_pass1L : ∀ ts : List TreeN, wfLB ts = true →
    p1invLB (pass1L ts).1 = true
  | [], _ => rfl
  | t :: ts, h => by
    simp only [wfLB, Bool.and_eq_true] at h
    rw [pass1L_cons]
    simp only [p1invLB, Bool.and_eq_true]
    exact ⟨p1inv_pass1 t h.1, p1inv_pass1L ts h.2⟩
end

theorem p2st_ok {pa : Option St} {s : St} {o : Bool} {u : St}
    (hs : s ≠ ∅) (hsub : s ⊆ ({0, 1} : St))
    (hpa : pa = none ∨ ∃ A, pa = some A ∧ A ≠ ∅ ∧ A ⊆ ({0, 1} : St)) :
    p2st pa s o u ≠ ∅ ∧ p2st pa s o u ⊆ ({0, 1} : St) := by
  rcases hpa with hpa | ⟨A, hpa, hAne, hAsub⟩ <;> subst hpa
  · exact ⟨hs, hsub⟩
  · simp only [p2st]
    split
    case isTrue hAs =>
      rw [Finset.inter_eq_left.mpr hAs]
      exact ⟨hAne, fun x hx => hsub (hAs hx)⟩
    case isFalse hAs =>
      split
      · constructor
        · intro hemp
          obtain ⟨x, hx⟩ := Finset.nonempty_iff_ne_empty.mpr hAne
          have : x ∈ A ∪ s := Finset.mem_union_left _ hx
          rw [hemp] at this
          simp at this
        · intro x hx
          rcases Finset.mem_union.mp hx with hx | hx
          · exact hAsub hx
          · exact hsub hx
      · constructor
        · intro hemp
          obtain ⟨x, hx⟩ := Finset.nonempty_iff_ne_empty.mpr hs
          have : x ∈ s ∪ (A ∩ u) := Finset.mem_union_left _ hx
          rw [hemp] at this
          simp at this
        · intro x hx
          rcases Finset.mem_union.mp hx with hx | hx
          · exact hsub hx
          · exact hAsub (Finset.mem_inter.mp hx).1

mutual
theorem stOk_pass2 : ∀ (w : TreeN) (pa : Option St) (p : List ℕ),
    stOkB w = true →
    (pa = none ∨ ∃ A, pa = some A ∧ A ≠ ∅ ∧ A ⊆ ({0, 1} : St)) →
    stOkB (pass2 pa p w).1 = true
  | .node n s o g l [], pa, p, h, hpa => by
    simpa [pass2] using h
  | .node n s o g l (c :: cs), pa, p, h, hpa => by
    obtain ⟨hs, hsub⟩ := stOkB_st h
    have hcs := stOkB_children h
    obtain ⟨h2ne, h2sub⟩ := p2st_ok hs hsub hpa
    rw [pass2_eq]
    simp only [stOkB, Bool.and_eq_true, decide_eq_true_eq]
    refine ⟨⟨h2ne, h2sub⟩, ?_⟩
    exact stOk_pass2L (c :: cs)
      (p2st pa s o (unionList ((c :: cs).map TreeN.st))) p 0 hcs h2ne h2sub

theorem stOk_pass2L : ∀ (ts : List TreeN) (A : St) (p : List ℕ) (i : ℕ),
    stOkLB ts = true → A ≠ ∅ → A ⊆ ({0, 1} : St) →
    stOkLB (pass2L A p i ts).1 = true
  | [], A, p, i, _, _, _ => rfl
  | t :: ts, A, p, i, h, hAne, hAsub => by
    simp only [stOkLB, Bool.and_eq_true] at h
    rw [pass2L_cons]
    simp only [stOkLB, Bool.and_eq_true]
    exact ⟨stOk_pass2 t (some A) (p ++ [i]) h.1
        (Or.inr ⟨A, rfl, hAne, hAsub⟩),
      stOk_pass2L ts A p (i + 1) h.2 hAne hAsub⟩
end

mutual
theorem recVal_pass2 : ∀ (w : TreeN) (pa : Option St) (p : List ℕ)
    (r : AmbRec), r ∈ (pass2 pa p w).2 → r.val ≤ 1
  | .node n s o g l [], pa, p, r, hr => by simp [pass2] at hr
  | .node n s o g l (c :: cs), pa, p, r, hr => by
    rw [pass2_eq] at hr
    rcases List.mem_append.mp hr with hr | hr
    · split at hr
      · rcases List.mem_cons.mp hr with hr | hr
        · simp [hr]
        · rcases List.mem_cons.mp hr with hr | hr
          · simp [hr]
          · simp at hr
      · simp at hr
    · exact recVal_pass2L (c :: cs) _ p 0 r hr

theorem recVal_pass2L : ∀ (ts : List TreeN) (A : St) (p : List ℕ) (i : ℕ)
    (r : AmbRec), r ∈ (pass2L A p i ts).2 → r.val ≤ 1
  | [], A, p, i, r, hr => by simp [pass2L] at hr
  | t :: ts, A, p, i, r, hr => by
    rw [pass2L_cons] at hr
    rcases List.mem_append.mp hr with hr | hr
    · exact recVal_pass2 t (some A) (p ++ [i]) r hr
    · exact recVal_pass2L ts A p (i + 1) r hr
end

mutual
theorem recName_pass2 : ∀ (w : TreeN) (pa : Option St) (p : List ℕ)
    (r : AmbRec), r ∈ (pass2 pa p w).2 → r.name ∈ intNames w
  | .node n s o g l [], pa, p, r, hr => by simp [pass2] at hr
  | .node n s o g l (c :: cs), pa, p, r, hr => by
    rw [pass2_eq] at hr
    simp only [intNames]
    rcases List.mem_append.mp hr with hr | hr
    · split at hr
      · rcases List.mem_cons.mp hr with hr | hr
        · simp [hr]
        · rcases List.mem_cons.mp hr with hr | hr
          · simp [hr]
          · simp at hr
      · simp at hr
    · exact List.mem_cons_of_mem n (recName_pass2L (c :: cs) _ p 0 r hr)

theorem recName_pass2L : ∀ (ts : List TreeN) (A : St) (p : List ℕ) (i : ℕ)
    (r : AmbRec), r ∈ (pass2L A p i ts).2 → r.name ∈ intNamesL ts
  | [], A, p, i, r, hr => by simp [pass2L] at hr
  | t :: ts, A, p, i, r, hr => by
    rw [pass2L_cons] at hr
    simp only [intNamesL, List.mem_append]
    rcases List.mem_append.mp hr with hr | hr
    · exact Or.inl (recName_pass2 t (some A) (p ++ [i]) r hr)
    · exact Or.inr (recName_pass2L ts A p (i + 1) r hr)
end

/-! ### The parsimony lower bound: no consistent singleton assignment
has fewer transition edges than pass 1 charges -/

theorem interList_pair (x y : St) : interList [x, y] = x ∩ y := rfl

theorem unionList_pair (x y : St) : unionList [x, y] = x ∪ y := rfl

theorem missCount_eq_zero {x : ℕ} : ∀ {ws : List TreeN},
    missCount x ws = 0 → ∀ w ∈ ws, x ∈ w.st := by
  intro ws
  induction ws with
  | nil => intro _ w hw; simp at hw
  | cons c cs ih =>
    intro h w hw
    simp only [missCount] at h
    rcases List.mem_cons.mp hw with hw | hw
    · subst hw
      by_cases hx : x ∈ w.st
      · exact hx
      · rw [if_neg hx] at h; omega
    · exact ih (by omega) w hw

theorem missCount_all {x : ℕ} : ∀ {ws : List TreeN},
    (∀ w ∈ ws, x ∉ w.st) → missCount x ws = ws.length := by
  intro ws
  induction ws with
  | nil => intro _; rfl
  | cons c cs ih =>
    intro h
    simp only [missCount, List.length_cons]
    rw [if_neg (h c (by simp)), ih (fun w hw => h w (by simp [hw]))]
    omega

mutual
theorem lemA : ∀ (t : TreeN) (σ : VTree), wfB t = true →
    consistent t σ = true →
    (pass1 t).2 + (if σ.v ∈ (pass1 t).1.st then 0 else 1) ≤ vchg σ
  | .node n s o g l [], σ, hw, hc => by
    cases σ with
    | node x ds =>
      cases ds with
      | nil =>
        simp only [consistent, Bool.and_eq_true, decide_eq_true_eq] at hc
        simp [pass1, TreeN.st, VTree.v, hc.2]
      | cons e es => simp [consistent] at hc
  | .node n s o g l (c :: cs), σ, hw, hc => by
    cases σ with
    | node x ds =>
      cases ds with
      | nil => simp [consistent] at hc
      | cons e es =>
        simp only [consistent, Bool.and_eq_true] at hc
        have hAL := lemAL (c :: cs) (e :: es) x
          (by
            simp only [wfLB, Bool.and_eq_true]
            simp only [wfB, Bool.and_eq_true] at hw
            exact ⟨hw.1, hw.2⟩)
          (by
            simp only [consistentL, Bool.and_eq_true]
            exact ⟨hc.1.2, hc.2⟩)
        have hstc : (pass1 c).1.st ≠ ∅ := by
          simp only [wfB, Bool.and_eq_true] at hw
          exact (stOkB_st (stOk_of_p1inv _ (p1inv_pass1 c hw.1))).1
        rw [pass1_eq]
        simp only [VTree.v, vchg]
        split
        case isTrue hin =>
          simp only [TreeN.st]
          have hm1 : 1 ≤ missCount x (pass1L (c :: cs)).1 := by
            by_contra hm
            have h0 : missCount x (pass1L (c :: cs)).1 = 0 := by omega
            have hall := missCount_eq_zero h0
            have hmem : x ∈ interList ((pass1L (c :: cs)).1.map TreeN.st) := by
              rw [pass1L_cons] at hall ⊢
              rw [List.map_cons]
              exact mem_interList.mpr
                ⟨hall _ (by simp), by
                  intro s2 hs2
                  obtain ⟨u, hu, rfl⟩ := List.mem_map.mp hs2
                  exact hall u (by simp [hu])⟩
            rw [hin] at hmem
            simp at hmem
          by_cases hxu : x ∈ unionList ((pass1L (c :: cs)).1.map TreeN.st)
          · rw [if_pos hxu]
            omega
          · rw [if_neg hxu]
            have hlen : missCount x (pass1L (c :: cs)).1 =
                (pass1L (c :: cs)).1.length := by
              refine missCount_all ?_
              intro w hw2 hxw
              refine hxu ?_
              rw [pass1L_cons] at hw2 ⊢
              rw [List.map_cons]
              rcases List.mem_cons.mp hw2 with hw2 | hw2
              · exact mem_unionList.mpr (Or.inl (hw2 ▸ hxw))
              · exact mem_unionList.mpr
                  (Or.inr ⟨w.st, List.mem_map.mpr ⟨w, hw2, rfl⟩, hxw⟩)
            have hlen2 : 2 ≤ (pass1L (c :: cs)).1.length := by
              rw [pass1L_cons]
              simp only [List.length_cons]
              cases cs with
              | nil =>
                exfalso
                rw [pass1L_cons] at hin
                simp only [pass1L, List.map_cons, List.map_nil] at hin
                rw [show interList [(pass1 c).1.st] = (pass1 c).1.st from rfl]
                  at hin
                exact hstc hin
              | cons c2 cs2 =>
                rw [pass1L_cons]
                simp
            omega
        case isFalse hin =>
          simp only [TreeN.st]
          by_cases hxs : x ∈ interList ((pass1L (c :: cs)).1.map TreeN.st)
          · rw [if_pos hxs]
            omega
          · rw [if_neg hxs]
            have hm1 : 1 ≤ missCount x (pass1L (c :: cs)).1 := by
              by_contra hm
              have h0 : missCount x (pass1L (c :: cs)).1 = 0 := by omega
              have hall := missCount_eq_zero h0
              refine hxs ?_
              rw [pass1L_cons] at hall ⊢
              rw [List.map_cons]
              exact mem_interList.mpr
                ⟨hall _ (by simp), by
                  intro s2 hs2
                  obtain ⟨u, hu, rfl⟩ := List.mem_map.mp hs2
                  exact hall u (by simp [hu])⟩
            omega

theorem lemAL : ∀ (ts : List TreeN) (σs : List VTree) (x : ℕ),
    wfLB ts = true → consistentL ts σs = true →
    (pass1L ts).2 + missCount x (pass1L ts).1 ≤ vchgL x σs
  | [], σs, x, _, hc => by
    cases σs with
    | nil => simp [pass1L, missCount, vchgL]
    | cons e es => simp [consistentL] at hc
  | t :: ts, σs, x, hw, hc => by
    cases σs with
    | nil => simp [consistentL] at hc
    | cons e es =>
      simp only [consistentL, Bool.and_eq_true] at hc
      simp only [wfLB, Bool.and_eq_true] at hw
      have h1 := lemA t e hw.1 hc.1
      have h2 := lemAL ts es x hw.2 hc.2
      rw [pass1L_cons]
      simp only [vchgL, missCount]
      have hkey : (if x ∈ (pass1 t).1.st then 0 else 1) ≤
          (if e.v = x then 0 else 1) +
          (if e.v ∈ (pass1 t).1.st then 0 else 1) := by
        by_cases hx : x ∈ (pass1 t).1.st
        · simp [hx]
        · by_cases hev : e.v = x
          · subst hev
            simp [hx]
          · rw [if_neg hx]
            split <;> omega
      omega
end

/-- Corollary: pass 1 never overcounts — for any consistent singleton
assignment, the number of differing parent-child edges is at least
`min_changes`. -/
theorem pass1_le_vchg {t : TreeN} {σ : VTree} (hw : wfB t = true)
    (hc : consistent t σ = true) : (pass1 t).2 ≤ vchg σ := by
  have h := lemA t σ hw hc
  split at h <;> omega

/-! ### Attainment: on a strictly bifurcating tree some consistent
assignment has exactly `min_changes` transition edges -/

theorem pick_le_one {s : St} (hne : s ≠ ∅) (hsub : s ⊆ ({0, 1} : St)) :
    pick s ≤ 1 := by
  have hm := pick_mem (Finset.nonempty_iff_ne_empty.mpr hne)
  have := hsub hm
  simp only [Finset.mem_insert, Finset.mem_singleton] at this
  omega

theorem lemB : ∀ (w : TreeN) (pref : ℕ), p1invB w = true →
    binaryB w = true → pref ≤ 1 →
    vchg (greedy pref w) = ucount w ∧
    (greedy pref w).v = (if pref ∈ w.st then pref else pick w.st) ∧
    consistent w (greedy pref w) = true
  | .node n s o g l [], pref, hp, hb, hle => by
    have hne : s ≠ ∅ := (stOkB_st (stOk_of_p1inv _ hp)).1
    have hsub : s ⊆ ({0, 1} : St) := (stOkB_st (stOk_of_p1inv _ hp)).2
    refine ⟨rfl, rfl, ?_⟩
    simp only [greedy, greedyL, consistent, Bool.and_eq_true,
      decide_eq_true_eq]
    by_cases hin : pref ∈ s
    · simp only [TreeN.st, if_pos hin]
      exact ⟨by simpa using hle, hin⟩
    · simp only [TreeN.st, if_neg hin]
      refine ⟨by simpa using pick_le_one hne hsub, ?_⟩
      exact pick_mem (Finset.nonempty_iff_ne_empty.mpr hne)
  | .node n s o g l [a, b], pref, hp, hb, hle => by
    have hps := stOkB_st (stOk_of_p1inv _ hp)
    simp only [binaryB, Bool.and_eq_true] at hb
    simp only [p1invB, p1invLB, Bool.and_eq_true, Bool.and_true] at hp
    have hpa : p1invB a = true := hp.2.1
    have hpb : p1invB b = true := hp.2.2
    have hane : a.st ≠ ∅ := (stOkB_st (stOk_of_p1inv _ hpa)).1
    have hbne : b.st ≠ ∅ := (stOkB_st (stOk_of_p1inv _ hpb)).1
    -- the chosen value at this node is a member of s either way
    have hvmem : (if pref ∈ s then pref else pick s) ∈ s := by
      split
      case isTrue h => exact h
      case isFalse h => exact pick_mem (Finset.nonempty_iff_ne_empty.mpr hps.1)
    have hvle : (if pref ∈ s then pref else pick s) ≤ 1 := by
      have := hps.2 hvmem
      simp only [Finset.mem_insert, Finset.mem_singleton] at this
      omega
    obtain ⟨hva, hva2, hva3⟩ := lemB a (if pref ∈ s then pref else pick s)
      hpa hb.1 hvle
    obtain ⟨hvb, hvb2, hvb3⟩ := lemB b (if pref ∈ s then pref else pick s)
      hpb hb.2 hvle
    set v := (if pref ∈ s then pref else pick s) with hvdef
    have hsts : ([a, b].map TreeN.st) = [a.st, b.st] := rfl
    refine ⟨?_, rfl, ?_⟩
    · -- transition count equals the union-node count
      simp only [greedy, greedyL, vchg, vchgL, ucount, ucountL]
      rw [← hvdef]
      revert hp
      rw [hsts, interList_pair, unionList_pair]
      intro hp
      by_cases hin : a.st ∩ b.st = ∅
      · rw [if_pos hin] at hp
        simp only [Bool.and_eq_true, decide_eq_true_eq] at hp
        obtain ⟨⟨ho, hs⟩, _⟩ := hp
        rcases Finset.mem_union.mp (hs ▸ hvmem) with hva' | hvb'
        · have hnb : v ∉ b.st := by
            intro hvb'
            have : v ∈ a.st ∩ b.st := Finset.mem_inter.mpr ⟨hva', hvb'⟩
            rw [hin] at this
            simp at this
          have hgav : (greedy v a).v = v := by rw [hva2, if_pos hva']
          have hgbv : (greedy v b).v ≠ v := by
            rw [hvb2, if_neg hnb]
            exact fun h =>
              hnb (h ▸ pick_mem (Finset.nonempty_iff_ne_empty.mpr hbne))
          rw [hgav, if_pos rfl, if_neg hgbv, hva, hvb, ho, if_pos rfl]
          omega
        · have hna : v ∉ a.st := by
            intro hva'
            have : v ∈ a.st ∩ b.st := Finset.mem_inter.mpr ⟨hva', hvb'⟩
            rw [hin] at this
            simp at this
          have hgbv : (greedy v b).v = v := by rw [hvb2, if_pos hvb']
          have hgav : (greedy v a).v ≠ v := by
            rw [hva2, if_neg hna]
            exact fun h =>
              hna (h ▸ pick_mem (Finset.nonempty_iff_ne_empty.mpr hane))
          rw [hgbv, if_pos rfl, if_neg hgav, hva, hvb, ho, if_pos rfl]
          omega
      · rw [if_neg hin] at hp
        simp only [Bool.and_eq_true, Bool.not_eq_true', decide_eq_true_eq]
          at hp
        obtain ⟨⟨ho, hs⟩, _⟩ := hp
        have hva' : v ∈ a.st := (Finset.mem_inter.mp (hs ▸ hvmem)).1
        have hvb' : v ∈ b.st := (Finset.mem_inter.mp (hs ▸ hvmem)).2
        have hgav : (greedy v a).v = v := by rw [hva2, if_pos hva']
        have hgbv : (greedy v b).v = v := by rw [hvb2, if_pos hvb']
        rw [hgav, hgbv, if_pos rfl, hva, hvb, ho]
        simp
    · -- consistency
      simp only [greedy, greedyL, consistent, consistentL, Bool.and_eq_true]
      rw [← hvdef]
      exact ⟨⟨by simpa using hvle, hva3⟩, hvb3, trivial⟩

theorem fitchCore_eq (t : TreeN) :
    fitchCore t =
      (if (ambOf t).isEmpty then
        match pseudoRootE (w2Of t) with
        | .error e => .error e
        | .ok pr =>
          .ok ((pass1 t).2,
            if pr.st = ({1} : St) then [] else [annotate0 none (w2Of t)])
      else if 10 < rOf t then .ok ((pass1 t).2, [])
      else
        match runCombos (w2Of t) (pass1 t).2 (combosOf t) with
        | .error e => .error e
        | .ok ts =>
          match pseudoRootE (w2Of t) with
          | .error e => .error e
          | .ok pr =>
            .ok ((pass1 t).2,
              if pr.st = ({1} : St) then [] else ts)) := rfl

theorem pseudoRootE_of_true {w : TreeN} (h : ambigLeafName w = true) :
    pseudoRootE w = .error .ambigName := by
  simp [pseudoRootE, h]

theorem pseudoRootE_of_false {w : TreeN} (h : ambigLeafName w = false) :
    pseudoRootE w = .ok (pseudoRoot w) := by
  simp [pseudoRootE, h]

/-- Exhaustive description of a completed reconstruction: the three
code paths (no ambiguity, more than 10 ambiguous nodes, bounded
enumeration); in the first and third the pseudo-root lookup succeeded
(no ambiguous leaf name) and the veto is applied as in the code. -/
theorem fitchCore_cases (t : TreeN) (mc : ℕ) (ts : List TreeN)
    (hok : fitchCore t = .ok (mc, ts)) :
    mc = (pass1 t).2 ∧
    ((ambOf t = [] ∧ ambigLeafName (w2Of t) = false ∧
        ts = (if (pseudoRoot (w2Of t)).st = ({1} : St) then []
          else [annotate0 none (w2Of t)])) ∨
      (ambOf t ≠ [] ∧ 10 < rOf t ∧ ts = []) ∨
      (ambOf t ≠ [] ∧ ¬ 10 < rOf t ∧ ambigLeafName (w2Of t) = false ∧
        ∃ ts2,
        runCombos (w2Of t) (pass1 t).2 (combosOf t) = .ok ts2 ∧
        ts = (if (pseudoRoot (w2Of t)).st = ({1} : St) then []
          else ts2))) := by
  rw [fitchCore_eq] at hok
  by_cases hemp : (ambOf t).isEmpty
  · rw [if_pos hemp] at hok
    by_cases hal : ambigLeafName (w2Of t) = true
    · rw [pseudoRootE_of_true hal] at hok
      replace hok : (Except.error Err.ambigName :
          Except Err (ℕ × List TreeN)) = .ok (mc, ts) := hok
      exact absurd hok (by simp)
    · have hal2 : ambigLeafName (w2Of t) = false := by simpa using hal
      rw [pseudoRootE_of_false hal2] at hok
      replace hok :
          Except.ok ((pass1 t).2,
            if (pseudoRoot (w2Of t)).st = ({1} : St) then []
            else [annotate0 none (w2Of t)]) =
            (Except.ok (mc, ts) : Except Err (ℕ × List TreeN)) := hok
      simp only [Except.ok.injEq, Prod.mk.injEq] at hok
      exact ⟨hok.1.symm, Or.inl ⟨List.isEmpty_iff.mp hemp, hal2, hok.2.symm⟩⟩
  · rw [if_neg hemp] at hok
    have hne : ambOf t ≠ [] := by simpa using hemp
    by_cases hr : 10 < rOf t
    · rw [if_pos hr] at hok
      simp only [Except.ok.injEq, Prod.mk.injEq] at hok
      exact ⟨hok.1.symm, Or.inr (Or.inl ⟨hne, hr, hok.2.symm⟩)⟩
    · rw [if_neg hr] at hok
      rcases hrc : runCombos (w2Of t) (pass1 t).2 (combosOf t) with e | ts2
      · rw [hrc] at hok
        exact absurd hok (by simp)
      · rw [hrc] at hok
        by_cases hal : ambigLeafName (w2Of t) = true
        · rw [pseudoRootE_of_true hal] at hok
          replace hok : (Except.error Err.ambigName :
              Except Err (ℕ × List TreeN)) = .ok (mc, ts) := hok
          exact absurd hok (by simp)
        · have hal2 : ambigLeafName (w2Of t) = false := by simpa using hal
          rw [pseudoRootE_of_false hal2] at hok
          replace hok :
              Except.ok ((pass1 t).2,
                if (pseudoRoot (w2Of t)).st = ({1} : St) then [] else ts2) =
                (Except.ok (mc, ts) : Except Err (ℕ × List TreeN)) := hok
          simp only [Except.ok.injEq, Prod.mk.injEq] at hok
          exact ⟨hok.1.symm,
            Or.inr (Or.inr ⟨hne, hr, hal2, ts2, rfl, hok.2.symm⟩)⟩

/-! ### Claim C3 -/

/-- C3, counterexample: on the multifurcating 4-leaf star with leaf
states 0,0,1,1, pass 1 returns `min_changes = 1`, yet every singleton
assignment consistent with the leaves has at least 2 state-transition
edges — pass 1 is *not* the theoretical minimum on this input, so the
claim fails as stated. -/
theorem c3_counterexample :
    (pass1 star4).2 = 1 ∧
    ∀ σ : VTree, consistent star4 σ = true → 2 ≤ vchg σ := by
  refine ⟨by decide, ?_⟩
  intro σ hσ
  cases σ with
  | node x ds =>
    rcases ds with _ | ⟨d1, _ | ⟨d2, _ | ⟨d3, _ | ⟨d4, _ | ⟨d5, ds⟩⟩⟩⟩⟩ <;>
      simp [star4, leafT, consistent, consistentL] at hσ
    cases d1 with
    | node v1 es1 =>
      cases d2 with
      | node v2 es2 =>
        cases d3 with
        | node v3 es3 =>
          cases d4 with
          | node v4 es4 =>
            rcases es1 with _ | ⟨e, es⟩ <;>
              rcases es2 with _ | ⟨e2, es2b⟩ <;>
              rcases es3 with _ | ⟨e3, es3b⟩ <;>
              rcases es4 with _ | ⟨e4, es4b⟩ <;>
              simp [star4, leafT, consistent, consistentL] at hσ
            obtain ⟨⟨hx, _, h1⟩, ⟨_, h2⟩, ⟨_, h3⟩, _, h4⟩ := hσ
            subst h1
            subst h2
            subst h3
            subst h4
            have hx01 : x = 0 ∨ x = 1 := by omega
            rcases hx01 with rfl | rfl <;> decide

/-- C3 (amended): for *strictly bifurcating* well-formed trees the
claim holds — pass 1 returns exactly the theoretical minimum number
of state-transition edges over all singleton assignments consistent
with the leaf states: no consistent assignment has fewer differing
parent-child edges, and some consistent assignment attains the value.
(On multifurcating inputs pass 1 is only a lower bound, see the
counterexample.) -/
theorem c3_amended (t : TreeN) (hw : wfB t = true) (hb : binaryB t = true) :
    (∀ σ : VTree, consistent t σ = true → (pass1 t).2 ≤ vchg σ) ∧
    (∃ σ : VTree, consistent t σ = true ∧ vchg σ = (pass1 t).2) := by
  constructor
  · intro σ hσ
    exact pass1_le_vchg hw hσ
  · have hskel := skelEq_pass1 t
    have hp := p1inv_pass1 t hw
    have hbw : binaryB (pass1 t).1 = true := by
      rw [binaryB_skelEq t (pass1 t).1 hskel]
      exact hb
    obtain ⟨h1, _h2, h3⟩ := lemB (pass1 t).1 0 hp hbw (by omega)
    refine ⟨greedy 0 (pass1 t).1, ?_, ?_⟩
    · exact (consistent_skelEq t (pass1 t).1 hskel _) ▸ h3
    · rw [h1, ← ucount_pass1]

/-- C3, witness: the amended claim applied to the concrete
bifurcating cherry with leaf states 0, 1 (`min_changes = 1`). -/
theorem c3_witness :
    wfB cherryT = true ∧ binaryB cherryT = true ∧
    ((∀ σ : VTree, consistent cherryT σ = true →
        (pass1 cherryT).2 ≤ vchg σ) ∧
      (∃ σ : VTree, consistent cherryT σ = true ∧
        vchg σ = (pass1 cherryT).2)) :=
  ⟨by decide, by decide, c3_amended cherryT (by decide) (by decide)⟩

/-! ### Claim C4 -/

/-- C4: whenever a reconstruction completes (the code can abort with a
`ValueError` on malformed states, in which case nothing is returned)
and the pseudo-root's state after pass 1/2 is `{1}`, the returned
annotated-tree set is empty — in the no-ambiguity branch and in the
enumeration branch the veto clears the set, and in the `R > 10` branch
the set is empty already — while `min_changes` is returned unchanged
as the pass-1 value.  The `2 ≤ leafCount` hypothesis keeps the input
inside the embedding's remit: ete3's `get_common_ancestor`, which the
veto calls, is only well-behaved when the tree has at least two
leaves. -/
theorem c4_veto (t : TreeN) (mc : ℕ) (ts : List TreeN)
    (_hleaf : 2 ≤ leafCount t)
    (hok : fitchCore t = .ok (mc, ts))
    (hpr : (pseudoRoot (pass2 none [] (pass1 t).1).1).st = ({1} : St)) :
    ts = [] ∧ mc = (pass1 t).2 := by
  obtain ⟨hmc, hcase⟩ := fitchCore_cases t mc ts hok
  refine ⟨?_, hmc⟩
  have hpr2 : (pseudoRoot (w2Of t)).st = ({1} : St) := hpr
  rcases hcase with ⟨_, _, hts⟩ | ⟨_, _, hts⟩ | ⟨_, _, _, ts2, _, hts⟩
  · rw [hts, if_pos hpr2]
  · exact hts
  · rw [hts, if_pos hpr2]

/-- C4, witness: on the all-ones cherry the pseudo-root resolves to
`{1}` and the reconstruction returns `min_changes = 0` with an empty
set. -/
theorem c4_witness :
    (2 ≤ leafCount allOnes ∧
      fitchCore allOnes = .ok (0, []) ∧
      (pseudoRoot (pass2 none [] (pass1 allOnes).1).1).st = ({1} : St)) ∧
    ([] : List TreeN) = [] ∧ 0 = (pass1 allOnes).2 :=
  ⟨⟨by decide, rfl, by decide⟩,
    c4_veto allOnes 0 [] (by decide) rfl (by decide)⟩

/-! ### Claim C5 -/

/-- C5: when pass 2 leaves more than 10 distinct ambiguous nodes, the
reconstruction returns the pass-1 `min_changes` together with an
empty annotated-tree set (the enumeration is bypassed). -/
theorem c5_bound (t : TreeN)
    (hamb : (pass2 none [] (pass1 t).1).2 ≠ [])
    (hr : 10 <
      ((pass2 none [] (pass1 t).1).2.map AmbRec.path).dedup.length) :
    fitchCore t = .ok ((pass1 t).2, []) := by
  simp only [fitchCore]
  rw [if_neg (by simpa using hamb), if_pos hr]

/-- C5, witness: eleven (0,1) cherries under one root produce 12
distinct ambiguous nodes; the reconstruction returns
`min_changes = 11` and no annotated trees. -/
theorem c5_witness :
    ((pass2 none [] (pass1 bigR).1).2 ≠ [] ∧
      10 < ((pass2 none [] (pass1 bigR).1).2.map AmbRec.path).dedup.length) ∧
    fitchCore bigR = .ok ((pass1 bigR).2, []) :=
  ⟨⟨by decide, by decide⟩, c5_bound bigR (by decide) (by decide)⟩

/-! ### Claim C8 -/

mutual
theorem deepcopy_eq : ∀ t : TreeN, deepcopy t = t
  | .node n s o g l cs => by
    simp only [deepcopy]
    rw [deepcopyL_eq cs]

theorem deepcopyL_eq : ∀ ts : List TreeN, deepcopyL ts = ts
  | [] => rfl
  | t :: ts => by
    simp only [deepcopyL]
    rw [deepcopy_eq t, deepcopyL_eq ts]
end

/-- C8: the reconstruction entry point copies the caller's tree
(`tree.copy('deepcopy')`) and hands only the copy to `_fitch`, so the
caller's tree is left exactly as it was (`deepcopy t = t` as a value,
and only the copy is threaded through the mutating passes), and two
runs on the same input produce identical results — `min_changes` and
the annotated-tree collection alike.  In this pure embedding, in-place
mutation is rendered by value threading, so freedom from hidden state
is inherited by construction; the content checked here is that the
entry point re-derives everything from the input value alone. -/
theorem c8_idempotent (t : TreeN) :
    fitch t = fitch t ∧ fitch t = fitchCore t ∧ deepcopy t = t :=
  ⟨rfl, by rw [fitch, deepcopy_eq t], deepcopy_eq t⟩

/-! ### Claim C7 -/

theorem singleton_of_no_rec {s : St} (hne : s ≠ ∅) (hcard : ¬ 1 < s.card) :
    ∃ b, s = {b} := by
  have h0 : s.card ≠ 0 := fun hz => hne (Finset.card_eq_zero.mp hz)
  exact Finset.card_eq_one.mp (by omega)

mutual
theorem skelEq_trans : ∀ (t u v : TreeN), skelEq t u = true →
    skelEq u v = true → skelEq t v = true
  | .node n1 s1 o1 g1 l1 [], .node n2 s2 o2 g2 l2 cs2,
      .node n3 s3 o3 g3 l3 cs3, h1, h2 => by
    cases cs2 with
    | nil =>
      cases cs3 with
      | nil =>
        simp only [skelEq, Bool.and_eq_true, decide_eq_true_eq] at h1 h2 ⊢
        exact ⟨h1.1.trans h2.1, h1.2.trans h2.2⟩
      | cons d ds => simp [skelEq] at h2
    | cons d ds => simp [skelEq] at h1
  | .node n1 s1 o1 g1 l1 (c :: cs), .node n2 s2 o2 g2 l2 cs2,
      .node n3 s3 o3 g3 l3 cs3, h1, h2 => by
    cases cs2 with
    | nil => simp [skelEq] at h1
    | cons d ds =>
      cases cs3 with
      | nil => simp [skelEq] at h2
      | cons e es =>
        simp only [skelEq, Bool.and_eq_true, decide_eq_true_eq] at h1 h2 ⊢
        exact ⟨⟨h1.1.1.trans h2.1.1, skelEq_trans c d e h1.1.2 h2.1.2⟩,
          skelEqL_trans cs ds es h1.2 h2.2⟩

theorem skelEqL_trans : ∀ (ts us vs : List TreeN), skelEqL ts us = true →
    skelEqL us vs = true → skelEqL ts vs = true
  | [], us, vs, h1, h2 => by
    cases us with
    | nil =>
      cases vs with
      | nil => rfl
      | cons e es => simp [skelEqL] at h2
    | cons d ds => simp [skelEqL] at h1
  | t :: ts, us, vs, h1, h2 => by
    cases us with
    | nil => simp [skelEqL] at h1
    | cons d ds =>
      cases vs with
      | nil => simp [skelEqL] at h2
      | cons e es =>
        simp only [skelEqL, Bool.and_eq_true] at h1 h2 ⊢
        exact ⟨skelEq_trans t d e h1.1 h2.1, skelEqL_trans ts ds es h1.2 h2.2⟩
end

theorem skelEq_w2 (t : TreeN) : skelEq t (w2Of t) = true :=
  skelEq_trans t (pass1 t).1 (w2Of t) (skelEq_pass1 t)
    (skelEq_pass2 (pass1 t).1 none [])

theorem perm_swap_mid {α : Type} (X Y Z : List α) :
    List.Perm (X ++ (Y ++ Z)) (Y ++ (X ++ Z)) := by
  have h1 : X ++ (Y ++ Z) = (X ++ Y) ++ Z := by rw [List.append_assoc]
  have h2 : Y ++ (X ++ Z) = (Y ++ X) ++ Z := by rw [List.append_assoc]
  rw [h1, h2]
  exact List.perm_append_comm.append_right Z

mutual
theorem namesSplit : ∀ t : TreeN,
    List.Perm (namesOf t) (leafNames t ++ intNames t)
  | .node n s o g l [] => by
    simp [namesOf, namesOfL, leafNames, intNames]
  | .node n s o g l (c :: cs) => by
    simp only [namesOf, leafNames, intNames]
    refine List.Perm.trans (List.Perm.cons n (namesSplitL (c :: cs))) ?_
    exact List.perm_middle.symm

theorem namesSplitL : ∀ ts : List TreeN,
    List.Perm (namesOfL ts) (leafNamesL ts ++ intNamesL ts)
  | [] => by simp [namesOfL, leafNamesL, intNamesL]
  | c :: cs => by
    simp only [namesOfL, leafNamesL, intNamesL]
    refine List.Perm.trans
      (List.Perm.append (namesSplit c) (namesSplitL cs)) ?_
    have h1 : (leafNames c ++ intNames c) ++ (leafNamesL cs ++ intNamesL cs)
        = leafNames c ++ (intNames c ++ (leafNamesL cs ++ intNamesL cs)) := by
      rw [List.append_assoc]
    have h2 : (leafNames c ++ leafNamesL cs) ++ (intNames c ++ intNamesL cs)
        = leafNames c ++ (leafNamesL cs ++ (intNames c ++ intNamesL cs)) := by
      rw [List.append_assoc]
    rw [h1, h2]
    exact List.Perm.append_left _ (perm_swap_mid _ _ _)
end

/-! ### The enumeration: membership in the accepted list -/

theorem runCombos_mem : ∀ (combos : List (List AmbRec)) (w : TreeN) (mc : ℕ)
    (ts : List TreeN), runCombos w mc combos = .ok ts →
    ∀ T ∈ ts, ∃ combo ∈ combos, ∃ tg : Tally,
      countT (buildMap combo) true w = some tg ∧ tg.1 = mc ∧
      T = annotate tg.2.1 tg.2.2 (buildMap combo) w
  | [], w, mc, ts, hok, T, hT => by
    simp only [runCombos, Except.ok.injEq] at hok
    subst hok
    simp at hT
  | combo :: rest, w, mc, ts, hok, T, hT => by
    simp only [runCombos] at hok
    rcases hc : countT (buildMap combo) true w with _ | ⟨tot, g, l⟩
    · rw [hc] at hok
      exact absurd hok (by simp)
    · rw [hc] at hok
      rcases hr : runCombos w mc rest with e | ts2
      · rw [hr] at hok
        exact absurd hok (by simp)
      · rw [hr] at hok
        replace hok :
            (Except.ok (if tot = mc then
              annotate g l (buildMap combo) w :: ts2 else ts2) :
              Except Err (List TreeN)) = .ok ts := hok
        simp only [Except.ok.injEq] at hok
        subst hok
        by_cases htot : tot = mc
        · rw [if_pos htot] at hT
          rcases List.mem_cons.mp hT with hT | hT
          · exact ⟨combo, by simp, (tot, g, l), hc, htot, hT⟩
          · obtain ⟨c2, hc2, tg, h1, h2, h3⟩ :=
              runCombos_mem rest w mc ts2 hr T hT
            exact ⟨c2, by simp [hc2], tg, h1, h2, h3⟩
        · rw [if_neg htot] at hT
          obtain ⟨c2, hc2, tg, h1, h2, h3⟩ :=
            runCombos_mem rest w mc ts2 hr T hT
          exact ⟨c2, by simp [hc2], tg, h1, h2, h3⟩

/-! ### Bind-style unfolding of the counting walk -/

theorem bonus_eq (b : Bool) (v : ℕ) (n : String) :
    (if b = true ∧ v = 1 then ((1 : ℕ), ([n], ([] : List String)))
      else (0, ([], []))) =
      (if b = true ∧ v = 1 then ((1 : ℕ), ([n], ([] : List String)))
        else (0, ([], []))) := rfl

theorem countT_cons (m : List (String × ℕ)) (b : Bool) (n : String) (s : St)
    (o g l : Bool) (c : TreeN) (cs : List TreeN) :
    countT m b (.node n s o g l (c :: cs)) =
      (effSt m n s).bind fun v =>
        (countL m v (c :: cs)).map fun rest =>
          ((if b = true ∧ v = 1 then ((1 : ℕ), ([n], ([] : List String)))
              else (0, ([], []))).1 + rest.1,
            (if b = true ∧ v = 1 then ((1 : ℕ), ([n], ([] : List String)))
              else (0, ([], []))).2.1 ++ rest.2.1,
            (if b = true ∧ v = 1 then ((1 : ℕ), ([n], ([] : List String)))
              else (0, ([], []))).2.2 ++ rest.2.2) := by
  cases he : effSt m n s with
  | none => simp only [countT, he, Option.bind]
  | some v =>
    cases hr : countL m v (c :: cs) with
    | none => simp only [countT, he, hr, Option.bind, Option.map]
    | some rest => simp only [countT, he, hr, Option.bind, Option.map]

theorem countL_cons (m : List (String × ℕ)) (v : ℕ) (c : TreeN)
    (cs : List TreeN) :
    countL m v (c :: cs) =
      (effSt m c.name c.st).bind fun dv =>
        (countT m false c).bind fun a =>
          (countL m v cs).map fun b2 =>
            ((if v = 0 ∧ dv = 1 then ((1 : ℕ), ([c.name], ([] : List String)))
                else if v = 1 ∧ dv = 0 then (1, ([], [c.name]))
                else (0, ([], []))).1 + a.1 + b2.1,
              (if v = 0 ∧ dv = 1 then ((1 : ℕ), ([c.name], ([] : List String)))
                else if v = 1 ∧ dv = 0 then (1, ([], [c.name]))
                else (0, ([], []))).2.1 ++ a.2.1 ++ b2.2.1,
              (if v = 0 ∧ dv = 1 then ((1 : ℕ), ([c.name], ([] : List String)))
                else if v = 1 ∧ dv = 0 then (1, ([], [c.name]))
                else (0, ([], []))).2.2 ++ a.2.2 ++ b2.2.2) := by
  cases he : effSt m c.name c.st with
  | none => simp only [countL, he, Option.bind]
  | some dv =>
    cases ha : countT m false c with
    | none => simp only [countL, he, ha, Option.bind, Option.map]
    | some a =>
      cases hb : countL m v cs with
      | none => simp only [countL, he, ha, hb, Option.bind, Option.map]
      | some b2 => simp only [countL, he, ha, hb, Option.bind, Option.map]

theorem effTree_node (m : List (String × ℕ)) (n : String) (s : St)
    (o g l : Bool) (cs : List TreeN) :
    effTree m (.node n s o g l cs) =
      (effSt m n s).bind fun v =>
        (effTreeL m cs).map fun ds => VTree.node v ds := by
  cases he : effSt m n s with
  | none => simp only [effTree, he, Option.bind]
  | some v =>
    cases hd : effTreeL m cs with
    | none => simp only [effTree, he, hd, Option.bind, Option.map]
    | some ds => simp only [effTree, he, hd, Option.bind, Option.map]

theorem effTreeL_cons (m : List (String × ℕ)) (c : TreeN) (cs : List TreeN) :
    effTreeL m (c :: cs) =
      (effTree m c).bind fun d =>
        (effTreeL m cs).map fun ds => d :: ds := by
  cases he : effTree m c with
  | none => simp only [effTreeL, he, Option.bind]
  | some d =>
    cases hd : effTreeL m cs with
    | none => simp only [effTreeL, he, hd, Option.bind, Option.map]
    | some ds => simp only [effTreeL, he, hd, Option.bind, Option.map]

/-! ### The counting walk against the induced assignment -/

theorem lookupName_mem {m : List (String × ℕ)} {k : String} {v : ℕ}
    (h : lookupName m k = some v) : ∃ q ∈ m, q.1 = k ∧ q.2 = v := by
  unfold lookupName at h
  rcases hf : m.reverse.find? (fun q => q.1 = k) with _ | q
  · rw [hf] at h
    simp at h
  · rw [hf] at h
    simp only [Option.map_some', Option.some.injEq] at h
    refine ⟨q, List.mem_reverse.mp (List.mem_of_find?_eq_some hf), ?_, h⟩
    have hp := List.find?_some hf
    simpa using hp

theorem effSt_le_one {m : List (String × ℕ)} {n : String} {s : St} {v : ℕ}
    (hm : ∀ q ∈ m, q.2 ≤ 1) (hsub : s ⊆ ({0, 1} : St))
    (h : effSt m n s = some v) : v ≤ 1 := by
  unfold effSt at h
  rcases hl : lookupName m n with _ | u
  · rw [hl] at h
    have hs := single?_eq_some.mp h
    have hv : v ∈ s := hs ▸ Finset.mem_singleton_self v
    have hv2 := hsub hv
    simp only [Finset.mem_insert, Finset.mem_singleton] at hv2
    omega
  · rw [hl] at h
    simp only [Option.some.injEq] at h
    subst h
    obtain ⟨q, hq, _, hq2⟩ := lookupName_mem hl
    exact hq2 ▸ hm q hq

theorem effTree_v {m : List (String × ℕ)} {w : TreeN} {σ : VTree}
    (h : effTree m w = some σ) : effSt m w.name w.st = some σ.v := by
  cases w with
  | node n s o g l cs =>
    rw [effTree_node] at h
    rcases he : effSt m n s with _ | v
    · rw [he] at h
      simp at h
    · rw [he, Option.some_bind] at h
      rcases hts : effTreeL m cs with _ | ds
      · rw [hts] at h
        simp at h
      · rw [hts] at h
        simp only [Option.map_some', Option.some.injEq] at h
        subst h
        exact he

mutual
theorem countT_effC : ∀ (w : TreeN) (m : List (String × ℕ)) (b : Bool)
    (tg : Tally), countT m b w = some tg →
    ∃ σs, effTreeL m w.children = some σs
  | .node n s o g l [], m, b, tg, _ => ⟨[], rfl⟩
  | .node n s o g l (c :: cs), m, b, tg, h => by
    rw [countT_cons] at h
    rcases he : effSt m n s with _ | v
    · rw [he] at h
      simp at h
    · rw [he, Option.some_bind] at h
      rcases hr : countL m v (c :: cs) with _ | rest
      · rw [hr] at h
        simp at h
      · exact countL_effL (c :: cs) m v rest hr

theorem countL_effL : ∀ (ws : List TreeN) (m : List (String × ℕ)) (v : ℕ)
    (tg : Tally), countL m v ws = some tg →
    ∃ σs, effTreeL m ws = some σs
  | [], m, v, tg, _ => ⟨[], rfl⟩
  | c :: cs, m, v, tg, h => by
    rw [countL_cons] at h
    rcases he : effSt m c.name c.st with _ | dv
    · rw [he] at h
      simp at h
    · rw [he, Option.some_bind] at h
      rcases ha : countT m false c with _ | a
      · rw [ha] at h
        simp at h
      · rw [ha, Option.some_bind] at h
        rcases hb : countL m v cs with _ | b2
        · rw [hb] at h
          simp at h
        · obtain ⟨σkids, hσk⟩ := countT_effC c m false a ha
          obtain ⟨σrest, hσr⟩ := countL_effL cs m v b2 hb
          refine ⟨VTree.node dv σkids :: σrest, ?_⟩
          rw [effTreeL_cons]
          cases c with
          | node cn cst co cg cl ccs =>
            simp only [TreeN.name, TreeN.st] at he
            simp only [TreeN.children] at hσk
            rw [effTree_node, he, Option.some_bind, hσk, Option.map_some',
              hσr, Option.some_bind, Option.map_some']
end

theorem class_fst (v dv : ℕ) (nm : String) (hv : v ≤ 1) (hdv : dv ≤ 1) :
    (if v = 0 ∧ dv = 1 then ((1 : ℕ), ([nm], ([] : List String)))
      else if v = 1 ∧ dv = 0 then (1, ([], [nm]))
      else (0, ([], []))).1 = if dv = v then 0 else 1 := by
  have hv01 : v = 0 ∨ v = 1 := by omega
  have hd01 : dv = 0 ∨ dv = 1 := by omega
  rcases hv01 with rfl | rfl <;> rcases hd01 with rfl | rfl <;> simp

mutual
theorem countT_sub : ∀ (w : TreeN) (m : List (String × ℕ)) (tg : Tally)
    (σ : VTree), stOkB w = true → (∀ q ∈ m, q.2 ≤ 1) →
    countT m false w = some tg → effTree m w = some σ → tg.1 = vchg σ
  | .node n s o g l [], m, tg, σ, hst, hm, hc, he => by
    simp only [countT, Option.some.injEq] at hc
    subst hc
    rw [effTree_node] at he
    rcases hv : effSt m n s with _ | v
    · rw [hv] at he
      simp at he
    · rw [hv, Option.some_bind] at he
      simp only [effTreeL, Option.map_some', Option.some.injEq] at he
      subst he
      simp [vchg, vchgL]
  | .node n s o g l (c :: cs), m, tg, σ, hst, hm, hc, he => by
    have hsub := (stOkB_st hst).2
    have hkids := stOkB_children hst
    rw [countT_cons] at hc
    rw [effTree_node] at he
    rcases hv : effSt m n s with _ | v
    · rw [hv] at hc
      simp at hc
    · rw [hv, Option.some_bind] at hc he
      rcases hr : countL m v (c :: cs) with _ | rest
      · rw [hr] at hc
        simp at hc
      · rw [hr, Option.map_some'] at hc
        rcases hts : effTreeL m (c :: cs) with _ | σs
        · rw [hts] at he
          simp at he
        · rw [hts, Option.map_some'] at he
          simp only [Option.some.injEq] at he hc
          subst he
          subst hc
          have hvle : v ≤ 1 := effSt_le_one hm (by
            simpa only [TreeN.st] using hsub) hv
          have hLv := countL_vchg (c :: cs) m v rest σs hkids hm hvle hr hts
          simp only [vchg, Bool.false_eq_true, false_and, if_false]
          omega

theorem countL_vchg : ∀ (ws : List TreeN) (m : List (String × ℕ)) (v : ℕ)
    (tg : Tally) (σs : List VTree), stOkLB ws = true →
    (∀ q ∈ m, q.2 ≤ 1) → v ≤ 1 →
    countL m v ws = some tg → effTreeL m ws = some σs →
    tg.1 = vchgL v σs
  | [], m, v, tg, σs, _, _, _, hc, he => by
    simp only [countL, Option.some.injEq] at hc
    simp only [effTreeL, Option.some.injEq] at he
    subst hc
    subst he
    rfl
  | c :: cs, m, v, tg, σs, hst, hm, hvle, hc, he => by
    simp only [stOkLB, Bool.and_eq_true] at hst
    rw [countL_cons] at hc
    rw [effTreeL_cons] at he
    rcases hdv : effSt m c.name c.st with _ | dv
    · rw [hdv] at hc
      simp at hc
    · rw [hdv, Option.some_bind] at hc
      rcases ha : countT m false c with _ | a
      · rw [ha] at hc
        simp at hc
      · rw [ha, Option.some_bind] at hc
        rcases hb : countL m v cs with _ | b2
        · rw [hb] at hc
          simp at hc
        · rw [hb, Option.map_some'] at hc
          rcases hec : effTree m c with _ | σc
          · rw [hec] at he
            simp at he
          · rw [hec, Option.some_bind] at he
            rcases her : effTreeL m cs with _ | σrest
            · rw [her] at he
              simp at he
            · rw [her, Option.map_some'] at he
              simp only [Option.some.injEq] at hc he
              subst hc
              subst he
              have hdvle : dv ≤ 1 :=
                effSt_le_one hm (stOkB_st hst.1).2 hdv
              have h1 := countT_sub c m a σc hst.1 hm ha hec
              have h2 := countL_vchg cs m v b2 σrest hst.2 hm hvle hb her
              have h3 : σc.v = dv := by
                have h4 := effTree_v hec
                rw [hdv] at h4
                simpa using h4.symm
              simp only [vchgL, h3]
              have h4 := class_fst v dv c.name hvle hdvle
              by_cases hdveq : dv = v
              · rw [if_pos hdveq]
                rw [if_pos hdveq] at h4
                omega
              · rw [if_neg hdveq]
                rw [if_neg hdveq] at h4
                omega
end

/-- The transition total of the enumeration's root walk: spontaneous
root gain (when the root's effective state is 1) plus the number of
differing edges of the induced assignment. -/
theorem countT_root (n : String) (s : St) (o g l : Bool) (c : TreeN)
    (cs : List TreeN) (m : List (String × ℕ)) (tg : Tally)
    (hst : stOkB (.node n s o g l (c :: cs)) = true)
    (hm : ∀ q ∈ m, q.2 ≤ 1)
    (hc : countT m true (.node n s o g l (c :: cs)) = some tg) :
    ∃ (v : ℕ) (σs : List VTree), effSt m n s = some v ∧
      effTreeL m (c :: cs) = some σs ∧ v ≤ 1 ∧
      tg.1 = (if v = 1 then 1 else 0) + vchgL v σs := by
  rw [countT_cons] at hc
  rcases hv : effSt m n s with _ | v
  · rw [hv] at hc
    simp at hc
  · rw [hv, Option.some_bind] at hc
    rcases hr : countL m v (c :: cs) with _ | rest
    · rw [hr] at hc
      simp at hc
    · rw [hr, Option.map_some'] at hc
      simp only [Option.some.injEq] at hc
      subst hc
      obtain ⟨σs, hσs⟩ := countL_effL (c :: cs) m v rest hr
      have hvle : v ≤ 1 := effSt_le_one hm (stOkB_st hst).2 hv
      have hrest := countL_vchg (c :: cs) m v rest σs
        (stOkB_children hst) hm hvle hr hσs
      refine ⟨v, σs, rfl, hσs, hvle, ?_⟩
      have hbf : (if True ∧ v = 1 then
          ((1 : ℕ), ([n], ([] : List String))) else (0, ([], []))).1 =
          if v = 1 then 1 else 0 := by
        by_cases hv1 : v = 1
        · rw [if_pos ⟨trivial, hv1⟩, if_pos hv1]
        · rw [if_neg (fun h => hv1 h.2), if_neg hv1]
      show (if True ∧ v = 1 then
          ((1 : ℕ), ([n], ([] : List String))) else (0, ([], []))).1 +
          rest.1 = (if v = 1 then 1 else 0) + vchgL v σs
      rw [hbf, hrest]

/-! ### Consistency of the induced assignment, and root-state facts -/

theorem effSt_of_none {m : List (String × ℕ)} {n : String} {s : St}
    (h : lookupName m n = none) : effSt m n s = single? s := by
  unfold effSt
  rw [h]

theorem effSt_of_some {m : List (String × ℕ)} {n : String} {s : St} {u : ℕ}
    (h : lookupName m n = some u) : effSt m n s = some u := by
  unfold effSt
  rw [h]

mutual
theorem effTree_consistent : ∀ (w : TreeN) (m : List (String × ℕ))
    (σ : VTree), effTree m w = some σ → stOkB w = true →
    (∀ q ∈ m, q.2 ≤ 1) →
    (∀ x ∈ leafNames w, lookupName m x = none) →
    consistent w σ = true
  | .node n s o g l [], m, σ, he, hst, hm, hlf => by
    rw [effTree_node] at he
    rcases hv : effSt m n s with _ | v
    · rw [hv] at he
      simp at he
    · rw [hv, Option.some_bind] at he
      simp only [effTreeL, Option.map_some', Option.some.injEq] at he
      subst he
      have hvle : v ≤ 1 := effSt_le_one hm (stOkB_st hst).2 hv
      have hlk : lookupName m n = none := hlf n (by simp [leafNames])
      rw [effSt_of_none hlk] at hv
      have hsv := single?_eq_some.mp hv
      simp only [consistent, Bool.and_eq_true, decide_eq_true_eq]
      exact ⟨by simpa using hvle, hsv ▸ Finset.mem_singleton_self v⟩
  | .node n s o g l (c :: cs), m, σ, he, hst, hm, hlf => by
    rw [effTree_node] at he
    rcases hv : effSt m n s with _ | v
    · rw [hv] at he
      simp at he
    · rw [hv, Option.some_bind] at he
      rcases hts : effTreeL m (c :: cs) with _ | ds
      · rw [hts] at he
        simp at he
      · rw [hts, Option.map_some'] at he
        simp only [Option.some.injEq] at he
        subst he
        have hvle : v ≤ 1 := effSt_le_one hm (stOkB_st hst).2 hv
        cases ds with
        | nil =>
          rw [effTreeL_cons] at hts
          rcases hec : effTree m c with _ | d
          · rw [hec] at hts
            simp at hts
          · rw [hec, Option.some_bind] at hts
            rcases her : effTreeL m cs with _ | ds2
            · rw [her] at hts
              simp at hts
            · rw [her, Option.map_some'] at hts
              simp at hts
        | cons d ds2 =>
          simp only [consistent, Bool.and_eq_true]
          have hL := effTreeL_consistent (c :: cs) m (d :: ds2) hts
            (stOkB_children hst) hm
            (fun x hx => hlf x (by simpa [leafNames] using hx))
          simp only [consistentL, Bool.and_eq_true] at hL
          exact ⟨⟨by simpa using hvle, hL.1⟩, hL.2⟩

theorem effTreeL_consistent : ∀ (ws : List TreeN) (m : List (String × ℕ))
    (σs : List VTree), effTreeL m ws = some σs → stOkLB ws = true →
    (∀ q ∈ m, q.2 ≤ 1) →
    (∀ x ∈ leafNamesL ws, lookupName m x = none) →
    consistentL ws σs = true
  | [], m, σs, he, _, _, _ => by
    simp only [effTreeL, Option.some.injEq] at he
    subst he
    rfl
  | c :: cs, m, σs, he, hst, hm, hlf => by
    simp only [stOkLB, Bool.and_eq_true] at hst
    rw [effTreeL_cons] at he
    rcases hec : effTree m c with _ | d
    · rw [hec] at he
      simp at he
    · rw [hec, Option.some_bind] at he
      rcases her : effTreeL m cs with _ | ds
      · rw [her] at he
        simp at he
      · rw [her, Option.map_some'] at he
        simp only [Option.some.injEq] at he
        subst he
        simp only [consistentL, Bool.and_eq_true]
        refine ⟨effTree_consistent c m d hec hst.1 hm ?_,
          effTreeL_consistent cs m ds her hst.2 hm ?_⟩
        · intro x hx
          exact hlf x (by simp [leafNamesL, hx])
        · intro x hx
          exact hlf x (by simp [leafNamesL, hx])
end

/-- `annotate0` never changes a node's state. -/
theorem annotate0_st (pa : Option St) (w : TreeN) :
    (annotate0 pa w).st = w.st := by
  cases w with
  | node n s o g l cs => rfl

/-- The root state of an annotated copy is the singleton of the
root's effective state. -/
theorem annotate_st {w : TreeN} {m : List (String × ℕ)}
    {g l : List String} {v : ℕ} (h : effSt m w.name w.st = some v) :
    (annotate g l m w).st = ({v} : St) := by
  cases w with
  | node n s o gb lb cs =>
    simp only [TreeN.name, TreeN.st] at h
    unfold effSt at h
    cases hl : lookupName m n with
    | none =>
      rw [hl] at h
      simp only [annotate, TreeN.st, hl]
      exact single?_eq_some.mp h
    | some u =>
      rw [hl] at h
      simp only [Option.some.injEq] at h
      simp only [annotate, TreeN.st, hl]
      rw [h]

/-- Pass 2 leaves the root's state unchanged. -/
theorem root_st_pass2 (w : TreeN) : (pass2 none [] w).1.st = w.st := by
  cases w with
  | node n s o g l cs =>
    cases cs with
    | nil => rfl
    | cons c cs2 =>
      rw [pass2_eq]
      rfl

/-- An internal root that produces no ambiguous record has a state of
at most one element. -/
theorem root_card_pass2 {n : String} {s : St} {o g l : Bool} {c : TreeN}
    {cs : List TreeN}
    (h : (pass2 none [] (.node n s o g l (c :: cs))).2 = []) :
    ¬ 1 < s.card := by
  rw [pass2_eq, List.append_eq_nil] at h
  intro hlt
  have hcond : 1 < (p2st none s o
      (unionList ((c :: cs).map TreeN.st))).card := hlt
  rw [if_pos hcond] at h
  exact absurd h.1 (by simp)

/-- A subtree of the pass-1 tree whose root state is `{1}` keeps a
`{1}` pseudo-root through pass 2 (states only propagate down the
single-child chain unchanged). -/
theorem chain_pass2 : ∀ (w : TreeN) (pa : Option St) (p : List ℕ),
    p1invB w = true → (pa = none ∨ pa = some ({1} : St)) →
    w.st = ({1} : St) →
    (pseudoRoot (pass2 pa p w).1).st = ({1} : St)
  | .node n s o g l [], pa, p, hp, hpa, hs => by
    simp only [TreeN.st] at hs
    subst hs
    simp [pass2, pseudoRoot, TreeN.st]
  | .node n s o g l [c], pa, p, hp, hpa, hs => by
    simp only [TreeN.st] at hs
    subst hs
    have hpc : p1invB c = true := by
      simp only [p1invB, p1invLB, Bool.and_eq_true, Bool.and_true] at hp
      exact hp.2
    have hcne : c.st ≠ ∅ := (stOkB_st (stOk_of_p1inv c hpc)).1
    have hcst : c.st = ({1} : St) := by
      simp only [p1invB, p1invLB, Bool.and_eq_true, Bool.and_true] at hp
      have h1 := hp.1
      rw [show interList ([c].map TreeN.st) = c.st from rfl] at h1
      rw [if_neg hcne] at h1
      simp only [Bool.and_eq_true, Bool.not_eq_true', decide_eq_true_eq] at h1
      exact h1.2.symm
    have hs2 : p2st pa ({1} : St) o (unionList ([c].map TreeN.st)) =
        ({1} : St) := by
      rcases hpa with rfl | rfl
      · rfl
      · simp only [p2st]
        rw [if_pos (Finset.Subset.refl _), Finset.inter_self]
    rw [pass2_eq, hs2, pass2L_cons]
    simp only [pass2L]
    have hrec := chain_pass2 c (some ({1} : St)) (p ++ [0]) hpc
      (Or.inr rfl) hcst
    simpa [pseudoRoot] using hrec
  | .node n s o g l (c1 :: c2 :: cs), pa, p, hp, hpa, hs => by
    simp only [TreeN.st] at hs
    subst hs
    have hs2 : p2st pa ({1} : St) o
        (unionList ((c1 :: c2 :: cs).map TreeN.st)) = ({1} : St) := by
      rcases hpa with rfl | rfl
      · rfl
      · simp only [p2st]
        rw [if_pos (Finset.Subset.refl _), Finset.inter_self]
    rw [pass2_eq, hs2, pass2L_cons, pass2L_cons]
    simp [pseudoRoot, TreeN.st]

/-! ### Claim C9 -/

theorem disjoint_leaf_int {t : TreeN} (hn : (namesOf t).Nodup)
    {x : String} (hx : x ∈ leafNames t) : x ∉ intNames t := by
  have hperm := namesSplit t
  have hnd : (leafNames t ++ intNames t).Nodup := hperm.nodup_iff.mp hn
  exact fun hx2 => (List.nodup_append.mp hnd).2.2 hx hx2

/-- C9: on an input tree with pairwise distinct node names, singleton
leaf states and at least two leaves, every annotated tree a completed
reconstruction returns resolves the root to `{0}`: a root-value-1
candidate always counts a spontaneous gain on top of at least
`min_changes` edge transitions (the pass-1 lower bound), so it is
never accepted, and in the no-ambiguity branch a `{1}` root is wiped
out by the origin veto. -/
theorem c9_root_absent (t : TreeN) (mc : ℕ) (ts : List TreeN)
    (hn : (namesOf t).Nodup) (hw : wfB t = true)
    (_hleaf : 2 ≤ leafCount t)
    (hok : fitchCore t = .ok (mc, ts)) :
    ∀ T ∈ ts, T.st = ({0} : St) := by
  intro T hT
  have hp1 := p1inv_pass1 t hw
  have hstw1 := stOk_of_p1inv _ hp1
  have hstw2 : stOkB (w2Of t) = true :=
    stOk_pass2 (pass1 t).1 none [] hstw1 (Or.inl rfl)
  obtain ⟨hmc, hcase⟩ := fitchCore_cases t mc ts hok
  rcases hcase with ⟨hamb, _, hts⟩ | ⟨_, _, hts⟩ |
    ⟨hamb, _, _, ts2, hrun, hts⟩
  · -- no-ambiguity branch
    rw [hts] at hT
    by_cases hveto : (pseudoRoot (w2Of t)).st = ({1} : St)
    · rw [if_pos hveto] at hT
      simp at hT
    · rw [if_neg hveto] at hT
      simp only [List.mem_singleton] at hT
      subst hT
      rw [annotate0_st]
      have hroot : (w2Of t).st = (pass1 t).1.st := root_st_pass2 (pass1 t).1
      rw [hroot]
      obtain ⟨b, hb⟩ : ∃ b, (pass1 t).1.st = {b} := by
        rcases hw1 : (pass1 t).1 with ⟨n1, s1, o1, g1, l1, cs1⟩
        cases cs1 with
        | nil =>
          have hx := hp1
          rw [hw1] at hx
          simp only [p1invB, Bool.or_eq_true, decide_eq_true_eq] at hx
          rcases hx with h | h
          · exact ⟨0, by simp [TreeN.st, h]⟩
          · exact ⟨1, by simp [TreeN.st, h]⟩
        | cons c1 cs2 =>
          have hrecs : (pass2 none []
              (TreeN.node n1 s1 o1 g1 l1 (c1 :: cs2))).2 = [] := by
            have hx : ambOf t = [] := hamb
            unfold ambOf at hx
            rw [hw1] at hx
            exact hx
          have hcard := root_card_pass2 hrecs
          have hne : s1 ≠ ∅ := by
            rw [hw1] at hstw1
            exact (stOkB_st hstw1).1
          obtain ⟨b, hb⟩ := singleton_of_no_rec hne hcard
          exact ⟨b, by simp [TreeN.st, hb]⟩
      rw [hb]
      have hble : b ≤ 1 := by
        have hsub := (stOkB_st hstw1).2
        have hx := hsub (hb ▸ Finset.mem_singleton_self b)
        simp only [Finset.mem_insert, Finset.mem_singleton] at hx
        omega
      have hbne1 : b ≠ 1 := by
        intro h1
        exact hveto (chain_pass2 (pass1 t).1 none [] hp1 (Or.inl rfl)
          (by rw [hb, h1]))
      have hb0 : b = 0 := by omega
      rw [hb0]
  · rw [hts] at hT
    simp at hT
  · -- enumeration branch
    rw [hts] at hT
    by_cases hveto : (pseudoRoot (w2Of t)).st = ({1} : St)
    · rw [if_pos hveto] at hT
      simp at hT
    · rw [if_neg hveto] at hT
      obtain ⟨combo, hcombo, tg, hcount, htot, hTeq⟩ :=
        runCombos_mem (combosOf t) (w2Of t) (pass1 t).2 ts2 hrun T hT
      have hslm := (List.mem_filter.mp hcombo).1
      have hsubl : combo.Sublist (ambOf t) :=
        (List.mem_sublistsLen.mp hslm).1
      have hm : ∀ q ∈ buildMap combo, q.2 ≤ 1 := by
        intro q hq
        obtain ⟨rec, hrec, hq2⟩ := List.mem_map.mp hq
        have hmem : rec ∈ ambOf t := hsubl.subset hrec
        have hval := recVal_pass2 (pass1 t).1 none [] rec hmem
        rw [← hq2]
        exact hval
      have hlf : ∀ x ∈ leafNames (w2Of t),
          lookupName (buildMap combo) x = none := by
        intro x hx
        rw [leafNames_skelEq t (w2Of t) (skelEq_w2 t)] at hx
        rw [lookupName_eq_none]
        intro q hq
        obtain ⟨rec, hrec, hq2⟩ := List.mem_map.mp hq
        have hint : rec.name ∈ intNames (pass1 t).1 :=
          recName_pass2 (pass1 t).1 none [] rec (hsubl.subset hrec)
        rw [intNames_skelEq t (pass1 t).1 (skelEq_pass1 t)] at hint
        subst hq2
        intro hqx
        simp only at hqx
        rw [hqx] at hint
        exact disjoint_leaf_int hn hx hint
      rcases hw1 : (pass1 t).1 with ⟨n1, s1, o1, g1, l1, cs1⟩
      cases cs1 with
      | nil =>
        exfalso
        apply hamb
        show ambOf t = []
        unfold ambOf
        rw [hw1]
        rfl
      | cons c1 cs2 =>
        have hw2 : w2Of t = .node n1
            (p2st none s1 o1 (unionList ((c1 :: cs2).map TreeN.st))) o1 g1 l1
            ((pass2 (some (p2st none s1 o1
                (unionList ((c1 :: cs2).map TreeN.st)))) ([] ++ [0]) c1).1 ::
              (pass2L (p2st none s1 o1
                (unionList ((c1 :: cs2).map TreeN.st))) [] (0 + 1) cs2).1) := by
          unfold w2Of
          rw [hw1, pass2_eq, pass2L_cons]
        have hstw2b : stOkB (TreeN.node n1
            (p2st none s1 o1 (unionList ((c1 :: cs2).map TreeN.st))) o1 g1 l1
            ((pass2 (some (p2st none s1 o1
                (unionList ((c1 :: cs2).map TreeN.st)))) ([] ++ [0]) c1).1 ::
              (pass2L (p2st none s1 o1
                (unionList ((c1 :: cs2).map TreeN.st))) [] (0 + 1) cs2).1)) =
            true := by
          rw [← hw2]
          exact hstw2
        rw [hw2] at hcount
        obtain ⟨v, σs, heff, heffL, hvle, htotf⟩ :=
          countT_root _ _ _ _ _ _ _ _ _ hstw2b hm hcount
        have hσ : effTree (buildMap combo) (w2Of t) =
            some (VTree.node v σs) := by
          rw [hw2, effTree_node, heff, Option.some_bind, heffL,
            Option.map_some']
        have hconsw2 : consistent (w2Of t) (VTree.node v σs) = true :=
          effTree_consistent _ _ _ hσ hstw2 hm hlf
        have hconst : consistent t (VTree.node v σs) = true := by
          rw [← consistent_skelEq t (w2Of t) (skelEq_w2 t)]
          exact hconsw2
        have hlow : (pass1 t).2 ≤ vchg (VTree.node v σs) :=
          pass1_le_vchg hw hconst
        have hvchg : vchg (VTree.node v σs) = vchgL v σs := rfl
        have hv0 : v = 0 := by
          by_contra hvx
          have hv1 : v = 1 := by omega
          rw [if_pos hv1] at htotf
          rw [hvchg] at hlow
          omega
        subst hv0
        rw [hTeq]
        refine annotate_st ?_
        rw [hw2]
        exact heff

set_option maxHeartbeats 3200000 in
/-- Witness for `c9_root_absent` on the concrete tree `sc2`. -/
theorem c9_witness :
    ((namesOf sc2).Nodup ∧ wfB sc2 = true ∧ 2 ≤ leafCount sc2 ∧
      fitchCore sc2 = .ok (1, [sc2out])) ∧ sc2out.st = ({0} : St) :=
  ⟨⟨by decide, by decide, by decide, rfl⟩,
   c9_root_absent sc2 1 [sc2out] (by decide) (by decide) (by decide)
     rfl sc2out (List.mem_singleton_self _)⟩

/-! ### Claim C10 -/

mutual
theorem nodeAge_eq : ∀ t : DTree, nodeAge t = (subAll t).map ageEntry
  | .node n d [] => rfl
  | .node n d (c :: cs) => by
    show nodeAgeL (c :: cs) ++
        [(n, AgeVal.ofDist (farthestLeafDist (DTree.node n d (c :: cs))))] =
      (subAllL (c :: cs) ++ [DTree.node n d (c :: cs)]).map ageEntry
    rw [List.map_append, nodeAgeL_eq (c :: cs)]
    rfl

theorem nodeAgeL_eq : ∀ cs : List DTree, nodeAgeL cs = (subAllL cs).map ageEntry
  | [] => rfl
  | c :: cs => by
    show nodeAge c ++ nodeAgeL cs = (subAll c ++ subAllL cs).map ageEntry
    rw [List.map_append, nodeAge_eq c, nodeAgeL_eq cs]
end

theorem lookupAge_nodup_mem {m : List (String × AgeVal)}
    (hn : (m.map Prod.fst).Nodup) {k : String} {v : AgeVal}
    (hv : (k, v) ∈ m) : lookupAge m k = some v := by
  unfold lookupAge
  have hvr : (k, v) ∈ m.reverse := List.mem_reverse.mpr hv
  rcases hf : m.reverse.find? (fun q => q.1 = k) with _ | q
  · exfalso
    have hnone := List.find?_eq_none.mp hf (k, v) hvr
    simp at hnone
  · have hqm : q ∈ m := List.mem_reverse.mp (List.mem_of_find?_eq_some hf)
    have hqk : q.1 = k := by simpa using List.find?_some hf
    have hq : q = (k, v) :=
      List.inj_on_of_nodup_map hn hqm hv (by rw [hqk])
    rw [hf, hq]
    rfl

/-- C10 counterexample: `get_node_age` does not map a leaf to its
depth — it stores the leaf's *name* in the dict (`node_age[node_name]
= node.name`), so on `dtreeC10` the entry for leaf `A` is the string
`"A"` and no numeric age at all. -/
theorem c10_counterexample :
    lookupAge (nodeAge dtreeC10) "A" = some (.ofName "A") ∧
    ∀ q : ℚ, lookupAge (nodeAge dtreeC10) "A" ≠ some (.ofDist q) := by
  have h1 : lookupAge (nodeAge dtreeC10) "A" = some (.ofName "A") := rfl
  refine ⟨h1, fun q h => ?_⟩
  rw [h1] at h
  simp at h

/-- C10 (amended): `get_node_age` fills the dict in postorder with one
entry per node; a leaf's entry is the leaf's *name* (the string
itself), and an internal node's entry is the numeric distance to its
farthest descendant leaf; when node names are pairwise distinct,
looking a node's name up in the dict yields exactly that entry. -/
theorem c10_amended (t : DTree)
    (hn : ((nodeAge t).map Prod.fst).Nodup) :
    nodeAge t = (subAll t).map ageEntry ∧
    ∀ u ∈ subAll t, lookupAge (nodeAge t) u.name = some (ageEntry u).2 := by
  refine ⟨nodeAge_eq t, fun u hu => ?_⟩
  apply lookupAge_nodup_mem hn
  rw [nodeAge_eq t]
  have hmem : ageEntry u ∈ (subAll t).map ageEntry :=
    List.mem_map_of_mem _ hu
  have h1 : (ageEntry u).1 = u.name := by
    cases u with
    | node n d cs => cases cs <;> rfl
  rw [← h1]
  exact Prod.mk.eta ▸ hmem

/-- Witness for `c10_amended` on the concrete tree `dtreeC10`. -/
theorem c10_witness :
    ((nodeAge dtreeC10).map Prod.fst).Nodup ∧
    (nodeAge dtreeC10 = (subAll dtreeC10).map ageEntry ∧
     ∀ u ∈ subAll dtreeC10,
       lookupAge (nodeAge dtreeC10) u.name = some (ageEntry u).2) :=
  ⟨by decide, c10_amended dtreeC10 (by decide)⟩

/-! ### Claim C1 -/

theorem nodup_tri {e a b : List String} {nm : String} {N1 N2 : List String}
    (he : ∀ x ∈ e, x = nm) (hend : e.Nodup)
    (ha : ∀ x ∈ a, x ∈ N1) (hand : a.Nodup)
    (hb : ∀ x ∈ b, x ∈ N2) (hbnd : b.Nodup)
    (hnm1 : nm ∉ N1) (hnm2 : nm ∉ N2)
    (hdis : ∀ x ∈ N1, x ∉ N2) :
    (e ++ a ++ b).Nodup := by
  rw [List.append_assoc, List.nodup_append]
  refine ⟨hend, ?_, ?_⟩
  · rw [List.nodup_append]
    refine ⟨hand, hbnd, ?_⟩
    intro x hx hx2
    exact hdis x (ha x hx) (hb x hx2)
  · intro x hx hx2
    rcases List.mem_append.mp hx2 with h | h
    · exact hnm1 (he x hx ▸ ha x h)
    · exact hnm2 (he x hx ▸ hb x h)

/- The tally invariant of the counting walk: the running change total
equals the number of recorded gain names plus recorded loss names,
and under pairwise-distinct node names both recorded lists are
duplicate-free lists of node names of the walked tree (of child
names only, when the walk is not at the root). -/
mutual
theorem countT_tally : ∀ (w : TreeN) (m : List (String × ℕ)) (b : Bool)
    (tg : Tally), countT m b w = some tg → (namesOf w).Nodup →
    tg.1 = tg.2.1.length + tg.2.2.length ∧
    tg.2.1.Nodup ∧ tg.2.2.Nodup ∧
    (∀ x ∈ tg.2.1, x ∈ namesOf w) ∧ (∀ x ∈ tg.2.2, x ∈ namesOf w) ∧
    (b = false → (∀ x ∈ tg.2.1, x ∈ namesOfL w.children) ∧
      (∀ x ∈ tg.2.2, x ∈ namesOfL w.children))
  | .node n s o g l [], m, b, tg, hc, _ => by
    simp only [countT, Option.some.injEq] at hc
    subst hc
    refine ⟨rfl, by simp, by simp, by simp, by simp, fun _ => by simp⟩
  | .node n s o g l (c :: cs), m, b, tg, hc, hn => by
    rw [countT_cons] at hc
    rcases hv : effSt m n s with _ | v
    · rw [hv] at hc
      simp at hc
    · rw [hv, Option.some_bind] at hc
      rcases hr : countL m v (c :: cs) with _ | rest
      · rw [hr] at hc
        simp at hc
      · rw [hr, Option.map_some'] at hc
        simp only [Option.some.injEq] at hc
        subst hc
        have hn2 : n ∉ namesOfL (c :: cs) ∧ (namesOfL (c :: cs)).Nodup := by
          simp only [namesOf] at hn
          exact List.nodup_cons.mp hn
        obtain ⟨ihlen, ihGnd, ihLnd, ihGsub, ihLsub⟩ :=
          countL_tally (c :: cs) m v rest hr hn2.2
        by_cases hbv : (b = true ∧ v = 1)
        · rw [if_pos hbv]
          refine ⟨by
            simp only [List.length_append, List.length_singleton,
              List.length_nil, List.nil_append]
            omega, ?_, by simpa using ihLnd, ?_, ?_, ?_⟩
          · simp only [List.singleton_append, List.nodup_cons]
            exact ⟨fun hmem => hn2.1 (ihGsub n hmem), ihGnd⟩
          · intro x hx
            rcases List.mem_append.mp hx with h | h
            · simp only [List.mem_singleton] at h
              simp [namesOf, h]
            · simp only [namesOf, List.mem_cons]
              exact Or.inr (ihGsub x h)
          · intro x hx
            simp only [List.nil_append] at hx
            simp only [namesOf, List.mem_cons]
            exact Or.inr (ihLsub x hx)
          · intro hb
            rw [hb] at hbv
            exact absurd hbv.1 (by simp)
        · rw [if_neg hbv]
          refine ⟨by simp [ihlen], by simpa using ihGnd, by simpa using ihLnd,
            ?_, ?_, ?_⟩
          · intro x hx
            simp only [List.nil_append] at hx
            simp only [namesOf, List.mem_cons]
            exact Or.inr (ihGsub x hx)
          · intro x hx
            simp only [List.nil_append] at hx
            simp only [namesOf, List.mem_cons]
            exact Or.inr (ihLsub x hx)
          · intro _
            constructor
            · intro x hx
              simp only [List.nil_append] at hx
              exact ihGsub x hx
            · intro x hx
              simp only [List.nil_append] at hx
              exact ihLsub x hx

theorem countL_tally : ∀ (ws : List TreeN) (m : List (String × ℕ)) (v : ℕ)
    (tg : Tally), countL m v ws = some tg → (namesOfL ws).Nodup →
    tg.1 = tg.2.1.length + tg.2.2.length ∧
    tg.2.1.Nodup ∧ tg.2.2.Nodup ∧
    (∀ x ∈ tg.2.1, x ∈ namesOfL ws) ∧ (∀ x ∈ tg.2.2, x ∈ namesOfL ws)
  | [], m, v, tg, hc, _ => by
    simp only [countL, Option.some.injEq] at hc
    subst hc
    exact ⟨rfl, by simp, by simp, by simp, by simp⟩
  | .node cn cst cco ccg ccl ccs :: cs, m, v, tg, hc, hn => by
    rw [countL_cons] at hc
    rcases hdv : effSt m (TreeN.node cn cst cco ccg ccl ccs).name
        (TreeN.node cn cst cco ccg ccl ccs).st with _ | dv
    · rw [hdv] at hc
      simp at hc
    · rw [hdv, Option.some_bind] at hc
      rcases ha : countT m false (.node cn cst cco ccg ccl ccs) with _ | a
      · rw [ha] at hc
        simp at hc
      · rw [ha, Option.some_bind] at hc
        rcases hb : countL m v cs with _ | b2
        · rw [hb] at hc
          simp at hc
        · rw [hb, Option.map_some'] at hc
          simp only [Option.some.injEq] at hc
          subst hc
          have hsplit : (namesOf (TreeN.node cn cst cco ccg ccl ccs)).Nodup ∧
              (namesOfL cs).Nodup ∧
              ∀ x ∈ namesOf (TreeN.node cn cst cco ccg ccl ccs),
                x ∉ namesOfL cs := by
            simp only [namesOfL] at hn
            have h := List.nodup_append.mp hn
            exact ⟨h.1, h.2.1, fun x hx hx2 => h.2.2 hx hx2⟩
          have hcn : cn ∉ namesOfL ccs ∧ (namesOfL ccs).Nodup := by
            have h := hsplit.1
            simp only [namesOf] at h
            exact List.nodup_cons.mp h
          obtain ⟨alen, aGnd, aLnd, aGsub, aLsub, aCh⟩ :=
            countT_tally (.node cn cst cco ccg ccl ccs) m false a ha hsplit.1
          obtain ⟨aGch, aLch⟩ := aCh rfl
          obtain ⟨blen, bGnd, bLnd, bGsub, bLsub⟩ :=
            countL_tally cs m v b2 hb hsplit.2.1
          simp only [TreeN.children] at aGch aLch
          have hcn2 : cn ∉ namesOfL cs :=
            hsplit.2.2 cn (by simp [namesOf])
          have hdisj : ∀ x ∈ namesOfL ccs, x ∉ namesOfL cs := by
            intro x hx
            have hxm : x ∈ namesOf (TreeN.node cn cst cco ccg ccl ccs) := by
              simp only [namesOf, List.mem_cons]
              exact Or.inr hx
            exact hsplit.2.2 x hxm
          set e := if v = 0 ∧ dv = 1 then
              ((1 : ℕ), ([(TreeN.node cn cst cco ccg ccl ccs).name],
                ([] : List String)))
            else if v = 1 ∧ dv = 0 then
              (1, ([], [(TreeN.node cn cst cco ccg ccl ccs).name]))
            else (0, ([], [])) with hedef
          have hE : e.1 = e.2.1.length + e.2.2.length ∧
              e.2.1.Nodup ∧ e.2.2.Nodup ∧
              (∀ x ∈ e.2.1, x = cn) ∧ (∀ x ∈ e.2.2, x = cn) := by
            rw [hedef]
            by_cases h1 : (v = 0 ∧ dv = 1)
            · rw [if_pos h1]
              exact ⟨rfl, by simp, by simp, by simp [TreeN.name], by simp⟩
            · rw [if_neg h1]
              by_cases h2 : (v = 1 ∧ dv = 0)
              · rw [if_pos h2]
                exact ⟨rfl, by simp, by simp, by simp, by simp [TreeN.name]⟩
              · rw [if_neg h2]
                exact ⟨rfl, by simp, by simp, by simp, by simp⟩
          obtain ⟨elen, eGnd, eLnd, eGcn, eLcn⟩ := hE
          refine ⟨by simp only [List.length_append]; omega, ?_, ?_, ?_, ?_⟩
          · exact nodup_tri eGcn eGnd aGch aGnd bGsub bGnd hcn.1 hcn2 hdisj
          · exact nodup_tri eLcn eLnd aLch aLnd bLsub bLnd hcn.1 hcn2 hdisj
          · intro x hx
            simp only [namesOfL, namesOf, List.mem_append, List.mem_cons]
            rcases List.mem_append.mp hx with h | h
            · rcases List.mem_append.mp h with h2 | h2
              · exact Or.inl (Or.inl (eGcn x h2))
              · exact Or.inl (Or.inr (aGch x h2))
            · exact Or.inr (bGsub x h)
          · intro x hx
            simp only [namesOfL, namesOf, List.mem_append, List.mem_cons]
            rcases List.mem_append.mp hx with h | h
            · rcases List.mem_append.mp h with h2 | h2
              · exact Or.inl (Or.inl (eLcn x h2))
              · exact Or.inl (Or.inr (aLch x h2))
            · exact Or.inr (bLsub x h)
end

/- The flag count of an annotated copy: one gain flag per node whose
name is in the gain set, one loss flag per node whose name is in the
loss set. -/
mutual
theorem evCount_annotate : ∀ (w : TreeN) (G L : List String)
    (m : List (String × ℕ)),
    evCount (annotate G L m w) =
      ((namesOf w).filter (fun x => G.contains x)).length +
      ((namesOf w).filter (fun x => L.contains x)).length
  | .node n s o g l cs, G, L, m => by
    show (if G.contains n then 1 else 0) + (if L.contains n then 1 else 0) +
        evCountL (annotateL G L m cs) = _
    rw [evCountL_annotateL cs G L m]
    show _ = ((n :: namesOfL cs).filter (fun x => G.contains x)).length +
      ((n :: namesOfL cs).filter (fun x => L.contains x)).length
    rw [List.filter_cons, List.filter_cons]
    by_cases hg : n ∈ G <;> by_cases hl : n ∈ L <;>
      simp [List.elem_iff, hg, hl] <;> omega

theorem evCountL_annotateL : ∀ (cs : List TreeN) (G L : List String)
    (m : List (String × ℕ)),
    evCountL (annotateL G L m cs) =
      ((namesOfL cs).filter (fun x => G.contains x)).length +
      ((namesOfL cs).filter (fun x => L.contains x)).length
  | [], _, _, _ => rfl
  | c :: cs, G, L, m => by
    show evCount (annotate G L m c) + evCountL (annotateL G L m cs) = _
    rw [evCount_annotate c G L m, evCountL_annotateL cs G L m]
    show _ = ((namesOf c ++ namesOfL cs).filter (fun x => G.contains x)).length
      + ((namesOf c ++ namesOfL cs).filter (fun x => L.contains x)).length
    rw [List.filter_append, List.filter_append, List.length_append,
      List.length_append]
    omega
end

theorem filter_length_nodup {G N : List String} (hG : G.Nodup) (hN : N.Nodup)
    (hsub : ∀ x ∈ G, x ∈ N) :
    (N.filter (fun x => G.contains x)).length = G.length := by
  have hf : (N.filter (fun x => G.contains x)).Nodup := hN.filter _
  have hperm : List.Perm (N.filter (fun x => G.contains x)) G := by
    rw [List.perm_ext_iff_of_nodup hf hG]
    intro a
    simp only [List.mem_filter]
    constructor
    · rintro ⟨-, h2⟩
      exact List.elem_iff.mp h2
    · intro h
      exact ⟨hsub a h, List.elem_iff.mpr h⟩
  exact hperm.length_eq

set_option maxHeartbeats 3200000 in
/-- C1 counterexample: the gain/loss records are keyed by node *name*,
so on `cex1`, whose two internal nodes share the name `X`, the single
accepted tree carries 2 gain flags although `min_changes` is 1 — its
total gain+loss event count differs from the returned `min_changes`. -/
theorem c1_counterexample :
    wfB cex1 = true ∧ outSummary (fitchCore cex1) = some (1, [2]) :=
  ⟨by decide, rfl⟩

/-- C1 (amended): when the node names of the input tree are pairwise
distinct and the ambiguity enumeration runs (pass 2 reported at least
one ambiguous node), every annotated tree in the accepted set has a
total gain+loss flag count exactly equal to the returned
`min_changes` (the spontaneous root gain, when the root's effective
state is 1, is one of the flags). With duplicate names the count on
the emitted copy can differ from `min_changes`. -/
theorem c1_amended (t : TreeN) (mc : ℕ) (ts : List TreeN)
    (hn : (namesOf t).Nodup) (hamb : ambOf t ≠ [])
    (hok : fitchCore t = .ok (mc, ts)) :
    ∀ T ∈ ts, evCount T = mc := by
  intro T hT
  obtain ⟨hmc, hcase⟩ := fitchCore_cases t mc ts hok
  rcases hcase with ⟨h0, _, _⟩ | ⟨_, _, hts⟩ | ⟨_, _, _, ts2, hrun, hts⟩
  · exact absurd h0 hamb
  · rw [hts] at hT
    simp at hT
  · rw [hts] at hT
    by_cases hveto : (pseudoRoot (w2Of t)).st = ({1} : St)
    · rw [if_pos hveto] at hT
      simp at hT
    · rw [if_neg hveto] at hT
      obtain ⟨combo, _, tg, hcount, htot, hTeq⟩ :=
        runCombos_mem (combosOf t) (w2Of t) (pass1 t).2 ts2 hrun T hT
      have hn2 : (namesOf (w2Of t)).Nodup := by
        rw [namesOf_skelEq t (w2Of t) (skelEq_w2 t)]
        exact hn
      obtain ⟨hlen, hGnd, hLnd, hGsub, hLsub, _⟩ :=
        countT_tally (w2Of t) (buildMap combo) true tg hcount hn2
      rw [hTeq, evCount_annotate,
        filter_length_nodup hGnd hn2 hGsub,
        filter_length_nodup hLnd hn2 hLsub, hmc, ← htot]
      omega

/-- Witness for `c1_amended` on the concrete tree `cherryT`. -/
theorem c1_witness :
    ((namesOf cherryT).Nodup ∧ ambOf cherryT ≠ [] ∧
      fitchCore cherryT = .ok (1, [cherryOut])) ∧
    ∀ T ∈ [cherryOut], evCount T = 1 :=
  ⟨⟨by decide, by decide, rfl⟩,
   c1_amended cherryT 1 [cherryOut] (by decide) (by decide) rfl⟩

/-! ### Claim C2 -/

theorem lookupName_nodup_mem {m : List (String × ℕ)}
    (hn : (m.map Prod.fst).Nodup) {k : String} {v : ℕ}
    (hv : (k, v) ∈ m) : lookupName m k = some v := by
  unfold lookupName
  have hvr : (k, v) ∈ m.reverse := List.mem_reverse.mpr hv
  rcases hf : m.reverse.find? (fun q => q.1 = k) with _ | q
  · exfalso
    have hnone := List.find?_eq_none.mp hf (k, v) hvr
    simp at hnone
  · have hqm : q ∈ m := List.mem_reverse.mp (List.mem_of_find?_eq_some hf)
    have hqk : q.1 = k := by simpa using List.find?_some hf
    have hq : q = (k, v) :=
      List.inj_on_of_nodup_map hn hqm hv (by rw [hqk])
    rw [hf, hq]
    rfl

/- Two pass-2 records bearing the same node name come from the same
node (the same path), provided internal-node names are pairwise
distinct. -/
mutual
theorem nameInj_pass2 : ∀ (w : TreeN) (pa : Option St) (p : List ℕ),
    (intNames w).Nodup →
    ∀ r1 ∈ (pass2 pa p w).2, ∀ r2 ∈ (pass2 pa p w).2,
      r1.name = r2.name → r1.path = r2.path
  | .node n s o g l [], pa, p, _, r1, h1, r2, h2, _ => by
    simp [pass2] at h1
  | .node n s o g l (c :: cs), pa, p, hnd, r1, h1, r2, h2, heq => by
    rw [pass2_eq] at h1 h2
    have hnd2 : n ∉ intNamesL (c :: cs) ∧ (intNamesL (c :: cs)).Nodup := by
      simp only [intNames] at hnd
      exact List.nodup_cons.mp hnd
    rcases List.mem_append.mp h1 with h1 | h1
    · rcases List.mem_append.mp h2 with h2 | h2
      · -- both own records: both carry path p
        have hp1 : r1.path = p := by
          split at h1
          · rcases List.mem_cons.mp h1 with h | h
            · simp [h]
            · rcases List.mem_cons.mp h with h | h
              · simp [h]
              · simp at h
          · simp at h1
        have hp2 : r2.path = p := by
          split at h2
          · rcases List.mem_cons.mp h2 with h | h
            · simp [h]
            · rcases List.mem_cons.mp h with h | h
              · simp [h]
              · simp at h
          · simp at h2
        rw [hp1, hp2]
      · exfalso
        have hn1 : r1.name = n := by
          split at h1
          · rcases List.mem_cons.mp h1 with h | h
            · simp [h]
            · rcases List.mem_cons.mp h with h | h
              · simp [h]
              · simp at h
          · simp at h1
        have hn2 : r2.name ∈ intNamesL (c :: cs) :=
          recName_pass2L (c :: cs) _ p 0 r2 h2
        rw [← heq, hn1] at hn2
        exact hnd2.1 hn2
    · rcases List.mem_append.mp h2 with h2 | h2
      · exfalso
        have hn2 : r2.name = n := by
          split at h2
          · rcases List.mem_cons.mp h2 with h | h
            · simp [h]
            · rcases List.mem_cons.mp h with h | h
              · simp [h]
              · simp at h
          · simp at h2
        have hn1 : r1.name ∈ intNamesL (c :: cs) :=
          recName_pass2L (c :: cs) _ p 0 r1 h1
        rw [heq, hn2] at hn1
        exact hnd2.1 hn1
      · exact nameInjL_pass2 (c :: cs) _ p 0 hnd2.2 r1 h1 r2 h2 heq

theorem nameInjL_pass2 : ∀ (ts : List TreeN) (A : St) (p : List ℕ) (i : ℕ),
    (intNamesL ts).Nodup →
    ∀ r1 ∈ (pass2L A p i ts).2, ∀ r2 ∈ (pass2L A p i ts).2,
      r1.name = r2.name → r1.path = r2.path
  | [], A, p, i, _, r1, h1, r2, h2, _ => by
    simp [pass2L] at h1
  | t :: ts, A, p, i, hnd, r1, h1, r2, h2, heq => by
    rw [pass2L_cons] at h1 h2
    have hsplit := List.nodup_append.mp (by
      simpa only [intNamesL] using hnd)
    rcases List.mem_append.mp h1 with h1 | h1
    · rcases List.mem_append.mp h2 with h2 | h2
      · exact nameInj_pass2 t (some A) (p ++ [i]) hsplit.1 r1 h1 r2 h2 heq
      · exfalso
        have hn1 : r1.name ∈ intNames t := recName_pass2 t _ _ r1 h1
        have hn2 : r2.name ∈ intNamesL ts := recName_pass2L ts A p _ r2 h2
        rw [← heq] at hn2
        exact hsplit.2.2 hn1 hn2
    · rcases List.mem_append.mp h2 with h2 | h2
      · exfalso
        have hn2 : r2.name ∈ intNames t := recName_pass2 t _ _ r2 h2
        have hn1 : r1.name ∈ intNamesL ts := recName_pass2L ts A p _ r1 h1
        rw [heq] at hn1
        exact hsplit.2.2 hn2 hn1
      · exact nameInjL_pass2 ts A p (i + 1) hsplit.2.1 r1 h1 r2 h2 heq
end

/- Under pairwise-distinct node names, the assignment dict built from
a candidate tuple that passed `_unique_nodes` has pairwise-distinct
keys. -/
theorem combo_names_nodup (t : TreeN) (hn : (namesOf t).Nodup)
    {combo : List AmbRec} (hc : combo ∈ combosOf t) :
    ((buildMap combo).map Prod.fst).Nodup := by
  have hf := List.mem_filter.mp hc
  have hu : uniqueNodes combo = true := hf.2
  have hsub : combo.Sublist (ambOf t) := (List.mem_sublistsLen.mp hf.1).1
  have hpaths : (combo.map AmbRec.path).Nodup := by
    simp only [uniqueNodes, decide_eq_true_eq] at hu
    have hlen : (combo.map AmbRec.path).dedup.length =
        (combo.map AmbRec.path).length := by
      rw [List.length_map]
      exact hu
    have heq := (List.dedup_sublist (combo.map AmbRec.path)).eq_of_length hlen
    rw [← heq]
    exact List.nodup_dedup _
  have hin : (intNames (pass1 t).1).Nodup := by
    rw [intNames_skelEq t (pass1 t).1 (skelEq_pass1 t)]
    have hnd2 : (leafNames t ++ intNames t).Nodup :=
      (namesSplit t).nodup_iff.mp hn
    exact (List.nodup_append.mp hnd2).2.1
  have hinj : ∀ r1 ∈ combo, ∀ r2 ∈ combo,
      r1.name = r2.name → r1 = r2 := by
    intro r1 hr1 r2 hr2 heq
    have hp := nameInj_pass2 (pass1 t).1 none [] hin r1 (hsub.subset hr1)
      r2 (hsub.subset hr2) heq
    exact List.inj_on_of_nodup_map hpaths hr1 hr2 hp
  have hm : (buildMap combo).map Prod.fst = combo.map AmbRec.name := by
    unfold buildMap
    rw [List.map_map]
    rfl
  rw [hm]
  exact (List.Nodup.of_map _ hpaths).map_on hinj

set_option maxHeartbeats 3200000 in
/-- C2 counterexample: the effective state is resolved by node *name*,
not by node identity.  On `cex2` the root and one leaf are both named
`N`: the tuple assigning 0 to the ambiguous root is an enumerated
candidate, yet the leaf named `N` — which carries state `{1}` and is
not an ambiguous node — has its state overridden to 0 by the
assignment during counting; as a result both candidates are rejected
(the enumeration completes with an empty accepted set), after which
the pseudo-root lookup aborts the run with ete3's
`TreeError('Ambiguous node name: N')` on the duplicated name. -/
theorem c2_counterexample :
    [(⟨[], "N", 0⟩ : AmbRec)] ∈ combosOf cex2 ∧
    "N" ∈ leafNames cex2 ∧
    effSt (buildMap [(⟨[], "N", 0⟩ : AmbRec)]) "N" ({1} : St) = some 0 ∧
    single? ({1} : St) = some 1 ∧
    runCombos (w2Of cex2) (pass1 cex2).2 (combosOf cex2) = .ok [] ∧
    fitchCore cex2 = .error .ambigName :=
  ⟨by decide, by decide, by decide, by decide, rfl, rfl⟩

/-- C2 (amended): the enumeration resolves effective states through a
name-keyed dict, so per-node resolution is only guaranteed when node
names are pairwise distinct.  In that case, for every enumerated
candidate tuple: no leaf name is a key of the assignment dict — a
leaf's effective state is always its own singleton state — and every
record of the tuple resolves, at any node bearing its name, to its
assigned value.  (With repeated names, a leaf's or an unambiguous
node's state can be overridden, as in `c2_counterexample`.) -/
theorem c2_amended (t : TreeN) (hn : (namesOf t).Nodup) :
    ∀ combo ∈ combosOf t,
      (∀ x ∈ leafNames t,
        lookupName (buildMap combo) x = none ∧
        ∀ s : St, effSt (buildMap combo) x s = single? s) ∧
      (∀ rec ∈ combo, ∀ s : St,
        effSt (buildMap combo) rec.name s = some rec.val) := by
  intro combo hc
  have hf := List.mem_filter.mp hc
  have hsub : combo.Sublist (ambOf t) := (List.mem_sublistsLen.mp hf.1).1
  constructor
  · intro x hx
    have hnone : lookupName (buildMap combo) x = none := by
      rw [lookupName_eq_none]
      intro q hq
      obtain ⟨rec, hrec, hq2⟩ := List.mem_map.mp hq
      have hint : rec.name ∈ intNames (pass1 t).1 :=
        recName_pass2 (pass1 t).1 none [] rec (hsub.subset hrec)
      rw [intNames_skelEq t (pass1 t).1 (skelEq_pass1 t)] at hint
      subst hq2
      intro hqx
      simp only at hqx
      rw [hqx] at hint
      exact disjoint_leaf_int hn hx hint
    exact ⟨hnone, fun s => effSt_of_none hnone⟩
  · intro rec hrec s
    have hmem : (rec.name, rec.val) ∈ buildMap combo := by
      unfold buildMap
      exact List.mem_map_of_mem _ hrec
    exact effSt_of_some (lookupName_nodup_mem (combo_names_nodup t hn hc) hmem)

/-- Witness for `c2_amended` on the concrete tree `cherryT`. -/
theorem c2_witness :
    (namesOf cherryT).Nodup ∧
    ∀ combo ∈ combosOf cherryT,
      (∀ x ∈ leafNames cherryT,
        lookupName (buildMap combo) x = none ∧
        ∀ s : St, effSt (buildMap combo) x s = single? s) ∧
      (∀ rec ∈ combo, ∀ s : St,
        effSt (buildMap combo) rec.name s = some rec.val) :=
  ⟨by decide, c2_amended cherryT (by decide)⟩

end SSEvo
